import Mathlib

/-!
Verification development for the "From Tube to Thought" core:
the hybrid retrieval fusion engine (src/retrieval/vector_store.py) and
the multi-tier cache manager (src/cache/manager.py), shallowly embedded
in Lean 4.  Scores are modelled in ℚ, wall-clock times in ℕ (seconds),
dictionaries and the file system as association lists.
-/

namespace TubeThought

/-! ## Hybrid retrieval fusion engine (src/retrieval/vector_store.py)

`_combine_search_results` builds, for each of the two candidate lists,
a Python dict `{doc.page_content: 1.0 - (i / len(list))}` (comprehension:
a duplicated content keeps the score of its LAST occurrence), takes the
union of contents keyed by page content (Python dicts keep first-insertion
order: dense-list order first, then lexical-only additions, each content
mapped to its last doc), scores each content by
`vector_scores.get(c, 0) * w + bm25_scores.get(c, 0) * (1 - w)`,
sorts by score descending with Python's stable sort, and `hybrid_search`
returns the first `k` contents.  Passages are modelled by their
`page_content` strings, which is all the fusion code inspects. -/

/-- Position scores for a candidate list: the element at zero-based
position `i` (starting from `n0`) of a list of length `N` is paired with
`1 - i / N`.  `posScoresAux n0 N l` models `enumerate(l)` starting at
index `n0` inside the dict comprehension of `_combine_search_results`. -/
def posScoresAux (n0 : ℕ) (N : ℕ) : List String → List (String × ℚ)
  | [] => []
  | c :: cs => (c, 1 - (n0 : ℚ) / (N : ℚ)) :: posScoresAux (n0 + 1) N cs

/-- The full position-score association list for a list `l`:
position `i` gets `1 - i / l.length`. -/
def posScores (l : List String) : List (String × ℚ) :=
  posScoresAux 0 l.length l

/-- Python-dict lookup with default `0`, as in
`vector_scores.get(content, 0)`: a dict comprehension keeps the LAST
binding for a duplicated key, hence the `reverse`. -/
def dictScore (assoc : List (String × ℚ)) (c : String) : ℚ :=
  match assoc.reverse.find? (fun p => p.1 = c) with
  | some p => p.2
  | none => 0

/-- First-occurrence deduplication, preserving order: models the
insertion order of the Python dict `all_docs` built from
`vector_docs + bm25_docs`. -/
def dedupKeepFirst : List String → List String
  | [] => []
  | c :: cs => c :: (dedupKeepFirst cs).filter (fun x => x ≠ c)

/-- Stable insertion (descending by score): the new pair goes in front of
the first existing pair whose score is at most its own.  Used to model
Python's stable `list.sort(key=score, reverse=True)`. -/
def insertDesc (p : String × ℚ) : List (String × ℚ) → List (String × ℚ)
  | [] => [p]
  | q :: qs => if q.2 ≤ p.2 then p :: q :: qs else q :: insertDesc p qs

/-- Stable sort, descending by score (ties keep original order), as
performed by `doc_scores.sort(key=lambda x: x[1], reverse=True)`. -/
def sortDesc : List (String × ℚ) → List (String × ℚ)
  | [] => []
  | p :: ps => insertDesc p (sortDesc ps)

/-- `VectorStore._combine_search_results`: position-normalise both lists,
take the union of contents (first-insertion order), fuse the scores with
weight `w`, and sort descending (stable). -/
def combineSearchResults (vectorDocs bm25Docs : List String) (w : ℚ) :
    List String :=
  (sortDesc ((dedupKeepFirst (vectorDocs ++ bm25Docs)).map (fun c =>
    (c, dictScore (posScores vectorDocs) c * w +
      dictScore (posScores bm25Docs) c * (1 - w))))).map Prod.fst

/-- The fusion stage of `VectorStore.hybrid_search` after the two
candidate lists have been produced (the dense list by the external
vector index, the lexical list by `_bm25_search`): fuse and keep the
top `k` passage contents.  `_format_search_results` only wraps each
content in a dict, so the result is modelled as the list of contents.
The full entry point, including the lazy index build that precedes this
stage, is `hybridSearchFull` below. -/
def hybridSearch (vectorDocs bm25Docs : List String) (k : ℕ) (w : ℚ) :
    List String :=
  (combineSearchResults vectorDocs bm25Docs w).take k

/-- Written from the spec: "for a list of length `N`, the item at
zero-based position `i` receives `1 - i/N`"; an item not in the list
contributes `0`. -/
def specPosScore (l : List String) (c : String) : ℚ :=
  match l.findIdx? (fun x => x = c) with
  | some i => 1 - (i : ℚ) / (l.length : ℚ)
  | none => 0

/-- Written from the spec: the fused score
`dense_norm * vector_weight + lexical_norm * (1 - vector_weight)`,
an absent contribution counted as `0`. -/
def specFusedScore (dense lex : List String) (w : ℚ) (c : String) : ℚ :=
  specPosScore dense c * w + specPosScore lex c * (1 - w)

/-- Written from the spec: the deduplicated union in discovery order —
dense-list order first, then lexical-only additions. -/
def specUnion (dense lex : List String) : List String :=
  dense ++ lex.filter (fun c => ¬ c ∈ dense)

/-- Written from the spec: score the union, sort by fused score
descending (stable sort: discovery order breaks ties), return the top
`k` passage contents. -/
def specFusion (dense lex : List String) (w : ℚ) (k : ℕ) : List String :=
  ((sortDesc ((specUnion dense lex).map
      (fun c => (c, specFusedScore dense lex w c)))).map Prod.fst).take k

/-! ## Multi-tier cache manager (src/cache/manager.py)

Three tiers: an in-process `TTLCache` (`memory_cache`), a persistent
key-value store (`disk_cache`, every `set` passes `expire=CACHE_TTL`),
and per-entry JSON files in two directories (`videos/` and `queries/`).
Each tier is modelled as an association list whose first binding for a
key is the current one; updates remove the old binding, matching dict /
file-system semantics.  Wall-clock time is an explicit `now : ℕ`
argument; an entry written at `t` is valid at `now` iff `now < t + TTL`
(the source computes `time.time() - t < CACHE_TTL`, and both expiry
checks in the source use the complementary `>= CACHE_TTL`).
`_hash_query` wraps `hashlib.md5(..).hexdigest()`, an external library
function: it is modelled as an arbitrary function parameter `hash`. -/

/-- `CACHE_TTL` from src/config/settings.py (seconds). -/
def TTL : ℕ := 86400

/-- A value held by the memory or disk tier: the manager stores the
boolean `True` for `video_processed:*` keys and response strings for
`query:*` keys in the same store. -/
inductive CVal where
  | b (x : Bool)
  | s (x : String)
deriving DecidableEq, Repr

/-- Python truthiness of a stored value, as tested by
`if disk_result:` — `True` is truthy, a string is truthy iff nonempty. -/
def truthy : CVal → Bool
  | .b x => x
  | .s x => x ≠ ""

/-- The value a `query:*` memory-cache hit returns
(`return self.memory_cache[memory_key]`).  Query keys only ever hold
strings; a boolean there (impossible via this manager's writes) is
rendered as its truthiness image for totality. -/
def cvalAsResponse : CVal → Option String
  | .s x => some x
  | .b _ => some ""

/-- Association-list lookup: the first binding wins. -/
def lookupA {α : Type} (l : List (String × α)) (k : String) : Option α :=
  (l.find? (fun p => p.1 = k)).map Prod.snd

/-- Association-list update: remove any old binding, add the new one.
Models both dict assignment and writing a file. -/
def updA {α : Type} (l : List (String × α)) (k : String) (v : α) :
    List (String × α) :=
  (k, v) :: l.filter (fun p => p.1 ≠ k)

/-- A timestamped tier entry (value plus the write time that started its
TTL clock). -/
abbrev Tier := List (String × CVal × ℕ)

/-- TTL-checked read of the memory or disk tier: a binding written at
`t` is visible at `now` iff `now < t + TTL`, else the read behaves as a
miss (`TTLCache` membership; `disk_cache.get(key, default=None)`). -/
def tierGet (tier : Tier) (now : ℕ) (k : String) : Option CVal :=
  match lookupA tier k with
  | some (v, t) => if now < t + TTL then some v else none
  | none => none

/-- The JSON record `mark_video_processed` writes to
`videos/{video_id}.json`. -/
structure VideoRec where
  video_id : String
  timestamp : ℕ
  processed : Bool
deriving DecidableEq, Repr

/-- The JSON record `cache_response` writes to
`queries/{video_id}_{query_hash}.json`. -/
structure QueryRec where
  video_id : String
  query : String
  response : String
  timestamp : ℕ
deriving DecidableEq, Repr

/-- The manager's mutable state: the two fast tiers plus the two
flat-file directories.  A file mapped to `none` is present but
unparseable (a corrupt record: `json.load` raises and the surrounding
`try/except` decides what happens).  `listFails` models an I/O error
from `os.listdir` during the approximate-match scan (the only
enumeration the manager performs). -/
structure CacheState where
  memory : Tier
  disk : Tier
  videoFiles : List (String × Option VideoRec)
  queryFiles : List (String × Option QueryRec)
  listFails : Bool
deriving Repr

/-- A fresh manager over empty stores. -/
def emptyState : CacheState :=
  { memory := [], disk := [], videoFiles := [], queryFiles := [],
    listFails := false }

/-- Python `str.lower()`, character by character.  (Implemented over the
character list so that it evaluates by kernel reduction.) -/
def pyLower (s : String) : String := String.mk (s.data.map Char.toLower)

/-- Python `str.split()` with no arguments: split on runs of whitespace,
discarding empty tokens.  `cur` accumulates the current token in
reverse. -/
def pySplitAux (cur : List Char) : List Char → List String
  | [] => if cur.isEmpty then [] else [String.mk cur.reverse]
  | c :: cs =>
    if c.isWhitespace then
      if cur.isEmpty then pySplitAux [] cs
      else String.mk cur.reverse :: pySplitAux [] cs
    else pySplitAux (c :: cur) cs

/-- Python `s.split()`. -/
def pySplit (s : String) : List String := pySplitAux [] s.data

/-- Python `s.startswith(p)`. -/
def pyStarts (s p : String) : Bool := p.data.isPrefixOf s.data

/-- Python `s.endswith(p)`. -/
def pyEnds (s p : String) : Bool := p.data.isSuffixOf s.data

/-- Query normalization from `get_cached_response` / `cache_response`:
`' '.join(query.lower().split())` — case-fold, split on whitespace runs,
rejoin with single spaces. -/
def normalizeQuery (q : String) : String :=
  " ".intercalate (pySplit (pyLower q))

/-- Python `set(s.split())`: the finite set of whitespace-separated
tokens of `s`. -/
def tokenSet (s : String) : Finset String :=
  (pySplit s).toFinset

/-- `CacheManager.mark_video_processed`: write-through of the marker to
all three tiers, stamped `now`. -/
def markVideoProcessed (S : CacheState) (now : ℕ) (v : String) :
    CacheState :=
  let k := "video_processed:" ++ v
  { S with
    memory := updA S.memory k (.b true, now)
    disk := updA S.disk k (.b true, now)
    videoFiles := updA S.videoFiles (v ++ ".json") (some ⟨v, now, true⟩) }

/-- `CacheManager.has_processed_video`: probe memory, then disk, then
the flat file, promoting a hit into the faster tiers; returns the flag
and the possibly-updated state. -/
def hasProcessedVideo (S : CacheState) (now : ℕ) (v : String) :
    Bool × CacheState :=
  let k := "video_processed:" ++ v
  match tierGet S.memory now k with
  | some _ => (true, S)
  | none =>
    if (tierGet S.disk now k).elim false truthy then
      (true, { S with memory := updA S.memory k (.b true, now) })
    else
      match lookupA S.videoFiles (v ++ ".json") with
      | none => (false, S)
      | some none => (false, S)
      | some (some rec0) =>
        if now < rec0.timestamp + TTL then
          (true, { S with
            memory := updA S.memory k (.b true, now)
            disk := updA S.disk k (.b true, now) })
        else (false, S)

/-- `CacheManager.cache_response`: write-through of the response to all
three tiers under the normalized-query fingerprint, stamped `now`. -/
def cacheResponse (hash : String → String) (S : CacheState) (now : ℕ)
    (v q r : String) : CacheState :=
  let nq := normalizeQuery q
  let h := hash nq
  let k := "query:" ++ v ++ ":" ++ h
  { S with
    memory := updA S.memory k (.s r, now)
    disk := updA S.disk k (.s r, now)
    queryFiles :=
      updA S.queryFiles (v ++ "_" ++ h ++ ".json") (some ⟨v, nq, r, now⟩) }

/-- The `cached_queries` list built by `_check_similar_queries`: every
file of the queries directory whose name starts with `{video_id}_` and
ends with `.json`, that parses, is not expired
(`time.time() - timestamp >= CACHE_TTL` skips it), and whose stored
query and response are both truthy (nonempty). -/
def fileMatches (v : String) (p : String × Option QueryRec) : Bool :=
  pyStarts p.1 (v ++ "_") && pyEnds p.1 ".json"

/-- Reading one candidate file inside the scan's inner `try`: a corrupt
record is skipped (`except: continue`), an expired one is skipped, and
a record with falsy query or response is not appended. -/
def candidateEntry (now : ℕ) (p : String × Option QueryRec) :
    Option (String × String) :=
  match p.2 with
  | none => none
  | some rec0 =>
    if rec0.timestamp + TTL ≤ now then none
    else if rec0.query ≠ "" ∧ rec0.response ≠ "" then
      some (rec0.query, rec0.response)
    else none

def candidateList (S : CacheState) (now : ℕ) (v : String) :
    List (String × String) :=
  (S.queryFiles.filter (fileMatches v)).filterMap (candidateEntry now)

/-- One step of the best-match fold of `_check_similar_queries`: skip a
candidate if either token set is empty, otherwise update the running
`(best_match, best_score)` pair on a strictly better Jaccard
similarity. -/
def similarStep (queryWords : Finset String)
    (acc : Option (String × String) × ℚ) (c : String × String) :
    Option (String × String) × ℚ :=
  let cachedWords := tokenSet (pyLower c.1)
  if cachedWords = ∅ ∨ queryWords = ∅ then acc
  else
    let inter : ℚ := ((queryWords ∩ cachedWords).card : ℚ)
    let uni : ℚ := ((queryWords ∪ cachedWords).card : ℚ)
    if 0 < uni then
      if inter / uni > acc.2 then (some c, inter / uni) else acc
    else acc

/-- `CacheManager._check_similar_queries`: linear scan of the candidate
list, tracking the maximum Jaccard similarity against the (already
normalized) input query, starting from the threshold `0.5`; returns the
best match's response if some candidate strictly beat the threshold.
An enumeration failure aborts into the outer `except`, returning
`None`. -/
def checkSimilarQueries (S : CacheState) (now : ℕ) (v q : String) :
    Option String :=
  if S.listFails then none
  else
    let cachedQueries := candidateList S now v
    if cachedQueries = [] then none
    else
      let queryWords := tokenSet q
      match (cachedQueries.foldl (similarStep queryWords) (none, 1/2)).1 with
      | some m => some m.2
      | none => none

/-- The flat-file branch of `get_cached_response` (lines 129-153): if
the query file is absent, corrupt, or expired, fall through to
`_check_similar_queries`; a valid record is returned, and promoted into
the faster tiers when the response is truthy (nonempty). -/
def getResponseFile (S : CacheState) (now : ℕ) (v nq h k : String) :
    Option String × CacheState :=
  match lookupA S.queryFiles (v ++ "_" ++ h ++ ".json") with
  | none => (checkSimilarQueries S now v nq, S)
  | some none => (checkSimilarQueries S now v nq, S)
  | some (some rec0) =>
    if now < rec0.timestamp + TTL then
      if rec0.response ≠ "" then
        (some rec0.response,
         { S with
           memory := updA S.memory k (.s rec0.response, now)
           disk := updA S.disk k (.s rec0.response, now) })
      else (some rec0.response, S)
    else (checkSimilarQueries S now v nq, S)

/-- `CacheManager.get_cached_response`: normalize, fingerprint, then
probe memory, disk (truthy hit only), and the flat file in order with
promotion on hit; on a full exact miss (including an expired or corrupt
file record) delegate to `_check_similar_queries`. -/
def getResponse (hash : String → String) (S : CacheState) (now : ℕ)
    (v q : String) : Option String × CacheState :=
  let nq := normalizeQuery q
  let h := hash nq
  let k := "query:" ++ v ++ ":" ++ h
  match tierGet S.memory now k with
  | some val => (cvalAsResponse val, S)
  | none =>
    match tierGet S.disk now k with
    | some val =>
      if truthy val then
        (cvalAsResponse val, { S with memory := updA S.memory k (val, now) })
      else getResponseFile S now v nq h k
    | none => getResponseFile S now v nq h k

/-- The ordering the fusion sort establishes: later entries score at
most as much as earlier ones. -/
def descOrd (a b : String × ℚ) : Prop := b.2 ≤ a.2

/-- The spec score read off with an explicit start index for the
position search. -/
def idxScoreFrom (N : ℕ) (l : List String) (n0 : ℕ) (c : String) : ℚ :=
  match List.findIdx? (fun x => x = c) l n0 with
  | some i => 1 - (i : ℚ) / (N : ℚ)
  | none => 0

/-- Jaccard similarity of the (already normalized) input query's token
set against a candidate's case-folded token set, as computed inside
`_check_similar_queries`. -/
def simQ (wq : Finset String) (c : String × String) : ℚ :=
  ((wq ∩ tokenSet (pyLower c.1)).card : ℚ) /
    ((wq ∪ tokenSet (pyLower c.1)).card : ℚ)

/-- A candidate is scored (not skipped) iff neither token set is
empty. -/
def validQ (wq : Finset String) (c : String × String) : Prop :=
  ¬ (tokenSet (pyLower c.1) = ∅ ∨ wq = ∅)

instance validQ_decidable (wq : Finset String) (c : String × String) :
    Decidable (validQ wq c) := by
  unfold validQ
  infer_instance

/-! ## Concrete states for the counterexamples and the leak -/

/-- A concrete stand-in for the opaque `_hash_query` digest. -/
def idHash : String → String := fun s => s

/-- Store, for video `v`, the response `""` under query "alpha beta"
and the response "R2" under query "alpha". -/
def emptyRespState : CacheState :=
  cacheResponse idHash
    (cacheResponse idHash emptyState 0 "v" "alpha beta" "") 0 "v"
    "alpha" "R2"

/-- Store a response for video `v_x` only. -/
def leakState : CacheState :=
  cacheResponse idHash emptyState 0 "v_x" "alpha beta" "SECRET"

/-- Store, for video `v`, the spec's example query. -/
def approxState : CacheState :=
  cacheResponse idHash emptyState 0 "v" "what is the main topic" "R1"

/-! ## Lemmas about the stable descending sort -/

theorem mem_insertDesc {p q : String × ℚ} :
    ∀ {l : List (String × ℚ)}, q ∈ insertDesc p l ↔ q = p ∨ q ∈ l := by
  intro l
  induction l with
  | nil => simp [insertDesc]
  | cons a t ih =>
    by_cases h : a.2 ≤ p.2
    · simp [insertDesc, h]
    · simp only [insertDesc, if_neg h, List.mem_cons, ih]
      tauto

theorem insertDesc_pairwise {p : String × ℚ} :
    ∀ {l : List (String × ℚ)}, List.Pairwise descOrd l →
      List.Pairwise descOrd (insertDesc p l) := by
  intro l
  induction l with
  | nil => intro _; simp [insertDesc, descOrd]
  | cons a t ih =>
    intro hp
    rcases List.pairwise_cons.mp hp with ⟨ha, ht⟩
    by_cases h : a.2 ≤ p.2
    · simp only [insertDesc, if_pos h]
      refine List.pairwise_cons.mpr ⟨?_, hp⟩
      intro x hx
      rcases List.mem_cons.mp hx with rfl | hx
      · exact h
      · exact le_trans (ha x hx) h
    · simp only [insertDesc, if_neg h]
      refine List.pairwise_cons.mpr ⟨?_, ih ht⟩
      intro x hx
      rcases mem_insertDesc.mp hx with rfl | hx
      · exact le_of_not_le h
      · exact ha x hx

theorem sortDesc_pairwise :
    ∀ l : List (String × ℚ), List.Pairwise descOrd (sortDesc l) := by
  intro l
  induction l with
  | nil => simp [sortDesc]
  | cons p t ih => exact insertDesc_pairwise ih

theorem filter_insertDesc (p : String × ℚ) (s : ℚ) :
    ∀ l : List (String × ℚ),
      (insertDesc p l).filter (fun x => x.2 = s) =
        ((p :: l).filter (fun x => x.2 = s)) := by
  intro l
  induction l with
  | nil => simp [insertDesc]
  | cons a t ih =>
    by_cases h : a.2 ≤ p.2
    · simp [insertDesc, h]
    · have hlt : p.2 < a.2 := lt_of_not_le h
      simp only [insertDesc, if_neg h, List.filter_cons, ih]
      by_cases hpa : a.2 = s <;> by_cases hpp : p.2 = s
      · exact absurd (hpa.trans hpp.symm) (ne_of_gt hlt)
      all_goals simp [hpa, hpp]

theorem sortDesc_filter (s : ℚ) :
    ∀ l : List (String × ℚ),
      (sortDesc l).filter (fun x => x.2 = s) =
        l.filter (fun x => x.2 = s) := by
  intro l
  induction l with
  | nil => rfl
  | cons p t ih =>
    calc (sortDesc (p :: t)).filter (fun x => x.2 = s)
        = ((p :: sortDesc t)).filter (fun x => x.2 = s) :=
          filter_insertDesc p s (sortDesc t)
      _ = (p :: t).filter (fun x => x.2 = s) := by
          simp only [List.filter_cons, ih]

theorem sortDesc_perm : ∀ l : List (String × ℚ), (sortDesc l).Perm l := by
  intro l
  induction l with
  | nil => rfl
  | cons p t ih =>
    have h1 : (insertDesc p (sortDesc t)).Perm (p :: sortDesc t) := by
      clear ih
      induction sortDesc t with
      | nil => rfl
      | cons a u ihu =>
        by_cases h : a.2 ≤ p.2
        · simp [insertDesc, h]
        · simp only [insertDesc, if_neg h]
          exact (ihu.cons a).trans (List.Perm.swap p a u)
    exact h1.trans (ih.cons p)

theorem sortDesc_eq_of_pairwise :
    ∀ {l : List (String × ℚ)}, List.Pairwise descOrd l → sortDesc l = l := by
  intro l
  induction l with
  | nil => intro _; rfl
  | cons p t ih =>
    intro hp
    rcases List.pairwise_cons.mp hp with ⟨hpt, ht⟩
    have : sortDesc t = t := ih ht
    show insertDesc p (sortDesc t) = p :: t
    rw [this]
    cases t with
    | nil => rfl
    | cons a u =>
      have hle : a.2 ≤ p.2 := hpt a (List.mem_cons_self a u)
      simp [insertDesc, hle]

/-- A list sorted descendingly with stable per-score filters is unique:
sortedness plus stability determine the stable sort's output. -/
theorem stable_sorted_unique :
    ∀ {L1 L2 : List (String × ℚ)}, List.Pairwise descOrd L1 →
      List.Pairwise descOrd L2 →
      (∀ s : ℚ, L1.filter (fun x => x.2 = s) =
        L2.filter (fun x => x.2 = s)) → L1 = L2 := by
  intro L1
  induction L1 with
  | nil =>
    intro L2 _ _ hf
    cases L2 with
    | nil => rfl
    | cons b t2 =>
      have := hf b.2
      simp [List.filter_cons] at this
  | cons a t1 ih =>
    intro L2 h1 h2 hf
    cases L2 with
    | nil =>
      have := hf a.2
      simp [List.filter_cons] at this
    | cons b t2 =>
      rcases List.pairwise_cons.mp h1 with ⟨ha1, ht1⟩
      rcases List.pairwise_cons.mp h2 with ⟨hb2, ht2⟩
      have hscore : a.2 = b.2 := by
        by_contra hne
        rcases lt_or_gt_of_ne hne with hlt | hgt
        · -- b has the strictly larger score: filter at b.2 empty on the left
          have h := hf b.2
          have hL : (a :: t1).filter (fun x => x.2 = b.2) = [] := by
            rw [List.filter_eq_nil_iff]
            intro x hx
            rcases List.mem_cons.mp hx with rfl | hx
            · simpa using ne_of_lt hlt
            · have := ha1 x hx
              simp only [descOrd] at this
              simpa using ne_of_lt (lt_of_le_of_lt this hlt)
          rw [hL] at h
          simp [List.filter_cons] at h
        · have h := hf a.2
          have hL : (b :: t2).filter (fun x => x.2 = a.2) = [] := by
            rw [List.filter_eq_nil_iff]
            intro x hx
            rcases List.mem_cons.mp hx with rfl | hx
            · simpa using (ne_of_gt hgt).symm
            · have := hb2 x hx
              simp only [descOrd] at this
              simpa using (ne_of_gt (gt_of_gt_of_ge hgt this)).symm
          rw [hL] at h
          simp [List.filter_cons] at h
      have e1 : (a :: t1).filter (fun x => x.2 = a.2) =
          a :: t1.filter (fun x => x.2 = a.2) := by
        rw [List.filter_cons]; simp
      have e2 : (b :: t2).filter (fun x => x.2 = a.2) =
          b :: t2.filter (fun x => x.2 = a.2) := by
        rw [List.filter_cons]; simp [hscore.symm]
      have hfa := hf a.2
      rw [e1, e2] at hfa
      injection hfa with hab htail
      subst hab
      have ht12 : t1 = t2 := by
        apply ih ht1 ht2
        intro s
        by_cases hs : s = a.2
        · subst hs; exact htail
        · have h := hf s
          have hne : ¬ (a.2 = s) := fun hh => hs hh.symm
          have e3 : (a :: t1).filter (fun x => x.2 = s) =
              t1.filter (fun x => x.2 = s) := by
            rw [List.filter_cons]; simp [hne]
          have e4 : (a :: t2).filter (fun x => x.2 = s) =
              t2.filter (fun x => x.2 = s) := by
            rw [List.filter_cons]; simp [hne]
          rw [e3, e4] at h
          exact h
      rw [ht12]

/-! ## Position scores: the dict built by the code vs the spec's
per-item formula -/

theorem posScoresAux_map_fst (N : ℕ) :
    ∀ (l : List String) (n0 : ℕ),
      (posScoresAux n0 N l).map Prod.fst = l := by
  intro l
  induction l with
  | nil => intro n0; rfl
  | cons x xs ih =>
    intro n0
    simp only [posScoresAux, List.map_cons, ih]

theorem find?_posScoresAux (N : ℕ) (c : String) :
    ∀ (l : List String) (n0 : ℕ),
      (posScoresAux n0 N l).find? (fun p => p.1 = c) =
        (List.findIdx? (fun x => x = c) l n0).map
          (fun i => (c, 1 - (i : ℚ) / (N : ℚ))) := by
  intro l
  induction l with
  | nil => intro n0; rfl
  | cons x xs ih =>
    intro n0
    by_cases hx : x = c
    · subst hx
      simp [posScoresAux, List.find?_cons, List.findIdx?_cons]
    · simp only [posScoresAux, List.find?_cons, List.findIdx?_cons]
      simp only [hx, decide_eq_true_eq, if_false]
      simpa [hx] using ih (n0 + 1)

theorem find?_reverse_of_nodup_keys :
    ∀ {L : List (String × ℚ)}, (L.map Prod.fst).Nodup → ∀ c : String,
      L.reverse.find? (fun p => p.1 = c) = L.find? (fun p => p.1 = c) := by
  intro L
  induction L with
  | nil => intro _ c; rfl
  | cons a t ih =>
    intro h c
    have h' : a.1 ∉ t.map Prod.fst ∧ (t.map Prod.fst).Nodup := by
      rw [List.map_cons, List.nodup_cons] at h
      exact h
    rcases h' with ⟨ha, ht⟩
    rw [List.reverse_cons, List.find?_append]
    by_cases hc : a.1 = c
    · have hnone : t.reverse.find? (fun p => p.1 = c) = none := by
        rw [List.find?_eq_none]
        intro x hx
        have hxt : x ∈ t := List.mem_reverse.mp hx
        simp only [decide_eq_true_eq]
        intro hxc
        apply ha
        have hax : a.1 = x.1 := hc.trans hxc.symm
        rw [hax]
        exact List.mem_map_of_mem Prod.fst hxt
      rw [hnone, List.find?_cons]
      simp [hc]
    · rw [ih ht c]
      cases o : List.find? (fun p : String × ℚ => p.1 = c) t <;>
        simp [List.find?_cons, hc, o]

/-- Under `Nodup`, the Python dict of position scores agrees with the
spec's "position `i` receives `1 - i/N`" formula. -/
theorem dictScore_posScores {l : List String} (hl : l.Nodup) (c : String) :
    dictScore (posScores l) c = specPosScore l c := by
  unfold dictScore specPosScore posScores
  rw [find?_reverse_of_nodup_keys (by rw [posScoresAux_map_fst]; exact hl) c]
  rw [find?_posScoresAux]
  cases List.findIdx? (fun x => x = c) l <;> rfl

/-! ## The deduplicated union -/

theorem dedupKeepFirst_of_nodup :
    ∀ {l : List String}, l.Nodup → dedupKeepFirst l = l := by
  intro l
  induction l with
  | nil => intro _; simp [dedupKeepFirst]
  | cons x xs ih =>
    intro h
    rcases List.nodup_cons.mp h with ⟨hx, hxs⟩
    have hf : xs.filter (fun a => a ≠ x) = xs :=
      List.filter_eq_self.mpr (fun a ha => by
        have hax : a ≠ x := fun e => hx (e ▸ ha)
        simp [hax])
    show x :: (dedupKeepFirst xs).filter (fun a => a ≠ x) = x :: xs
    rw [ih hxs, hf]

theorem dedupKeepFirst_append :
    ∀ {dense : List String}, dense.Nodup → ∀ {lex : List String}, lex.Nodup →
      dedupKeepFirst (dense ++ lex) = specUnion dense lex := by
  intro dense
  induction dense with
  | nil =>
    intro _ lex hl
    have : lex.filter (fun c => decide (¬ c ∈ ([] : List String))) = lex :=
      List.filter_eq_self.mpr (fun a _ => by simp)
    simp only [List.nil_append, specUnion, dedupKeepFirst_of_nodup hl]
    exact this.symm
  | cons d ds ih =>
    intro hd lex hl
    rcases List.nodup_cons.mp hd with ⟨hdds, hds⟩
    have hfds : ds.filter (fun a => a ≠ d) = ds :=
      List.filter_eq_self.mpr (fun a ha => by
        have had : a ≠ d := fun e => hdds (e ▸ ha)
        simp [had])
    have step : dedupKeepFirst ((d :: ds) ++ lex) =
        d :: (dedupKeepFirst (ds ++ lex)).filter (fun a => a ≠ d) := rfl
    rw [step, ih hds hl]
    unfold specUnion
    rw [List.filter_append, hfds, List.filter_filter]
    simp only [List.cons_append]
    congr 1
    congr 1
    apply List.filter_congr
    intro c _
    by_cases h1 : c ∈ ds <;> by_cases h2 : c = d <;>
      simp [List.mem_cons, h1, h2]

/-- The code's fused union, rewritten through the spec-side score
formula and union (valid under `Nodup`). -/
theorem combine_eq_spec {dense lex : List String} (w : ℚ)
    (hd : dense.Nodup) (hl : lex.Nodup) :
    combineSearchResults dense lex w =
      (sortDesc ((specUnion dense lex).map
        (fun c => (c, specFusedScore dense lex w c)))).map Prod.fst := by
  unfold combineSearchResults
  rw [dedupKeepFirst_append hd hl]
  have hmap : (specUnion dense lex).map (fun c =>
      (c, dictScore (posScores dense) c * w +
        dictScore (posScores lex) c * (1 - w))) =
      (specUnion dense lex).map
        (fun c => (c, specFusedScore dense lex w c)) := by
    apply List.map_congr_left
    intro c _
    rw [dictScore_posScores hd c, dictScore_posScores hl c]
    rfl
  rw [hmap]


/-! ## Claim C1 -/

/-- C1: for every dense and lexical candidate list (without internal
duplicates, so that "the position score of each list item" is
well-defined) and every `vector_weight`, the fusion of `hybrid_search`
assigns each item the position score `1 - i/N`, deduplicates the union
by exact passage text in discovery order (dense first, then
lexical-only), fuses with
`dense_norm * vector_weight + lexical_norm * (1 - vector_weight)`
(absent contribution = 0), sorts by fused score descending — the
output is sorted and the sort is stable (per-score filters are
preserved, so ties keep discovery order) — and returns only the top
`k` passage contents. -/
theorem hybrid_fusion_matches_spec (dense lex : List String) (k : ℕ)
    (w : ℚ) (hd : dense.Nodup) (hl : lex.Nodup) :
    hybridSearch dense lex k w = specFusion dense lex w k ∧
    List.Pairwise descOrd (sortDesc ((specUnion dense lex).map
      (fun c => (c, specFusedScore dense lex w c)))) ∧
    (∀ s : ℚ, (sortDesc ((specUnion dense lex).map
        (fun c => (c, specFusedScore dense lex w c)))).filter
          (fun p => p.2 = s) =
      ((specUnion dense lex).map
        (fun c => (c, specFusedScore dense lex w c))).filter
          (fun p => p.2 = s)) := by
  refine ⟨?_, sortDesc_pairwise _, fun s => sortDesc_filter s _⟩
  unfold hybridSearch specFusion
  rw [combine_eq_spec w hd hl]

/-- Witness for C1 at the spec's own worked example:
dense `[A,B,C]`, lexical `[B,D]`, `vector_weight = 0.7`, `k = 4`. -/
theorem hybrid_fusion_matches_spec_witness :
    (["A", "B", "C"] : List String).Nodup ∧
    (["B", "D"] : List String).Nodup ∧
    hybridSearch ["A", "B", "C"] ["B", "D"] 4 (7/10) =
      specFusion ["A", "B", "C"] ["B", "D"] (7/10) 4 :=
  ⟨by decide, by decide,
    (hybrid_fusion_matches_spec ["A", "B", "C"] ["B", "D"] 4 (7/10)
      (by decide) (by decide)).1⟩

/-! ## Claim C7 -/

theorem specPosScore_eq_idx (l : List String) (c : String) :
    specPosScore l c = idxScoreFrom l.length l 0 c := rfl

theorem idxScoreFrom_cons_ne {N : ℕ} {x c : String} (h : ¬ x = c)
    (xs : List String) (n0 : ℕ) :
    idxScoreFrom N (x :: xs) n0 c = idxScoreFrom N xs (n0 + 1) c := by
  unfold idxScoreFrom
  rw [List.findIdx?_cons]
  simp [h]

theorem idxScoreFrom_cons_eq {N : ℕ} {x c : String} (h : x = c)
    (xs : List String) (n0 : ℕ) :
    idxScoreFrom N (x :: xs) n0 c = 1 - (n0 : ℚ) / (N : ℚ) := by
  unfold idxScoreFrom
  rw [List.findIdx?_cons]
  simp [h]

/-- Division of naturals cast to ℚ by a fixed denominator is monotone
(also at denominator zero, where everything is zero). -/
theorem div_cast_mono {a b N : ℕ} (h : a ≤ b) :
    (a : ℚ) / (N : ℚ) ≤ (b : ℚ) / (N : ℚ) := by
  rcases Nat.eq_zero_or_pos N with h0 | hpos
  · subst h0; simp
  · have hc : (0 : ℚ) < (N : ℚ) := by exact_mod_cast hpos
    exact (div_le_div_iff_of_pos_right hc).mpr (by exact_mod_cast h)

theorem div_cast_strict {a b N : ℕ} (h : a < b) (hN : 0 < N) :
    (a : ℚ) / (N : ℚ) < (b : ℚ) / (N : ℚ) := by
  have hc : (0 : ℚ) < (N : ℚ) := by exact_mod_cast hN
  exact (div_lt_div_iff_of_pos_right hc).mpr (by exact_mod_cast h)

theorem map_idxScoreFrom (N : ℕ) :
    ∀ (l : List String), l.Nodup → ∀ n0 : ℕ,
      l.map (fun c => (c, idxScoreFrom N l n0 c)) = posScoresAux n0 N l := by
  intro l
  induction l with
  | nil => intro _ _; rfl
  | cons x xs ih =>
    intro h n0
    rcases List.nodup_cons.mp h with ⟨hx, hxs⟩
    rw [List.map_cons, idxScoreFrom_cons_eq rfl]
    show _ :: _ = (x, 1 - (n0 : ℚ) / (N : ℚ)) :: posScoresAux (n0 + 1) N xs
    congr 1
    have hcg : ∀ c ∈ xs, (c, idxScoreFrom N (x :: xs) n0 c) =
        (c, idxScoreFrom N xs (n0 + 1) c) := by
      intro c hc
      rw [idxScoreFrom_cons_ne (fun e => hx (by rw [e]; exact hc))]
    rw [List.map_congr_left hcg, ih hxs (n0 + 1)]

/-- Under `Nodup`, pairing each element with its spec position score
rebuilds the position-score association list. -/
theorem map_specPosScore {l : List String} (hl : l.Nodup) :
    l.map (fun c => (c, specPosScore l c)) = posScores l := by
  have h := map_idxScoreFrom l.length l hl 0
  unfold posScores
  rw [← h]
  apply List.map_congr_left
  intro c _
  rw [specPosScore_eq_idx]

theorem posScoresAux_le (N : ℕ) :
    ∀ (l : List String) (n0 : ℕ), ∀ p ∈ posScoresAux n0 N l,
      p.2 ≤ 1 - (n0 : ℚ) / (N : ℚ) := by
  intro l
  induction l with
  | nil => intro n0 p hp; cases hp
  | cons x xs ih =>
    intro n0 p hp
    rcases List.mem_cons.mp hp with rfl | hp
    · exact le_refl _
    · refine le_trans (ih (n0 + 1) p hp) ?_
      have := div_cast_mono (N := N) (Nat.le_succ n0)
      push_cast at this ⊢
      linarith

theorem posScoresAux_pairwise (N : ℕ) :
    ∀ (l : List String) (n0 : ℕ),
      List.Pairwise descOrd (posScoresAux n0 N l) := by
  intro l
  induction l with
  | nil => intro _; exact List.Pairwise.nil
  | cons x xs ih =>
    intro n0
    refine List.pairwise_cons.mpr ⟨?_, ih (n0 + 1)⟩
    intro p hp
    show p.2 ≤ 1 - (n0 : ℚ) / (N : ℚ)
    refine le_trans (posScoresAux_le N xs (n0 + 1) p hp) ?_
    have := div_cast_mono (N := N) (Nat.le_succ n0)
    push_cast at this ⊢
    linarith

theorem posScoresAux_pos (N : ℕ) :
    ∀ (l : List String) (n0 : ℕ), n0 + l.length ≤ N →
      ∀ p ∈ posScoresAux n0 N l, 0 < p.2 := by
  intro l
  induction l with
  | nil => intro n0 _ p hp; cases hp
  | cons x xs ih =>
    intro n0 hb p hp
    rcases List.mem_cons.mp hp with rfl | hp
    · show (0 : ℚ) < 1 - (n0 : ℚ) / (N : ℚ)
      have hlt : n0 < N := by
        simp only [List.length_cons] at hb
        omega
      have hNpos : 0 < N := Nat.lt_of_le_of_lt (Nat.zero_le n0) hlt
      have hc : (0 : ℚ) < (N : ℚ) := by exact_mod_cast hNpos
      have : (n0 : ℚ) / (N : ℚ) < 1 :=
        (div_lt_one hc).mpr (by exact_mod_cast hlt)
      linarith
    · refine ih (n0 + 1) ?_ p hp
      simp only [List.length_cons] at hb
      omega

/-- A constant-zero score list is (weakly) descending. -/
theorem pairwise_zeros (l : List String) :
    List.Pairwise descOrd (l.map (fun c => (c, (0 : ℚ)))) := by
  induction l with
  | nil => exact List.Pairwise.nil
  | cons x xs ih =>
    refine List.pairwise_cons.mpr ⟨?_, ih⟩
    intro p hp
    rcases List.mem_map.mp hp with ⟨c, _, rfl⟩
    exact le_refl _

theorem specPosScore_of_not_mem {l : List String} {c : String}
    (h : ¬ c ∈ l) : specPosScore l c = 0 := by
  unfold specPosScore
  have hn : l.findIdx? (fun x => x = c) = none := by
    rw [List.findIdx?_eq_none_iff]
    intro x hx
    simp only [decide_eq_false_iff_not]
    intro e
    exact h (e ▸ hx)
  rw [hn]

theorem idxScoreFrom_pos {c : String} (N : ℕ) :
    ∀ (l : List String) (n0 : ℕ), c ∈ l → n0 + l.length ≤ N →
      0 < idxScoreFrom N l n0 c := by
  intro l
  induction l with
  | nil => intro n0 hc _; cases hc
  | cons x xs ih =>
    intro n0 hc hb
    by_cases hx : x = c
    · rw [idxScoreFrom_cons_eq hx]
      have hlt : n0 < N := by
        simp only [List.length_cons] at hb
        omega
      have hc' : (0 : ℚ) < (N : ℚ) := by
        exact_mod_cast Nat.lt_of_le_of_lt (Nat.zero_le n0) hlt
      have : (n0 : ℚ) / (N : ℚ) < 1 :=
        (div_lt_one hc').mpr (by exact_mod_cast hlt)
      linarith
    · rcases List.mem_cons.mp hc with rfl | hc'
      · exact absurd rfl hx
      · rw [idxScoreFrom_cons_ne hx]
        refine ih (n0 + 1) hc' ?_
        simp only [List.length_cons] at hb
        omega

theorem specPosScore_pos {l : List String} {c : String} (h : c ∈ l) :
    0 < specPosScore l c := by
  rw [specPosScore_eq_idx]
  exact idxScoreFrom_pos l.length l 0 h (by simp)

theorem idxScoreFrom_le_of_mem {c : String} (N : ℕ) :
    ∀ (l : List String) (n0 : ℕ), c ∈ l →
      idxScoreFrom N l n0 c ≤ 1 - (n0 : ℚ) / (N : ℚ) := by
  intro l
  induction l with
  | nil => intro n0 hc; cases hc
  | cons x xs ih =>
    intro n0 hc
    by_cases hx : x = c
    · rw [idxScoreFrom_cons_eq hx]
    · rcases List.mem_cons.mp hc with rfl | hc'
      · exact absurd rfl hx
      · rw [idxScoreFrom_cons_ne hx]
        refine le_trans (ih (n0 + 1) hc') ?_
        have := div_cast_mono (N := N) (Nat.le_succ n0)
        push_cast at this ⊢
        linarith

theorem idxScoreFrom_injOn (N : ℕ) :
    ∀ (l : List String), l.Nodup → ∀ n0 : ℕ, n0 + l.length ≤ N →
      ∀ a ∈ l, ∀ b ∈ l,
        idxScoreFrom N l n0 a = idxScoreFrom N l n0 b → a = b := by
  intro l
  induction l with
  | nil => intro _ _ _ a ha; cases ha
  | cons x xs ih =>
    intro h n0 hb a ha b hbm heq
    rcases List.nodup_cons.mp h with ⟨hx, hxs⟩
    have hxslen : xs ≠ [] → n0 + 1 < N := by
      intro hne
      cases xs with
      | nil => exact absurd rfl hne
      | cons y ys =>
        simp only [List.length_cons] at hb
        omega
    rcases List.mem_cons.mp ha with rfl | ha' <;>
      rcases List.mem_cons.mp hbm with hbx | hb'
    · exact hbx.symm
    · exfalso
      have hxsne : xs ≠ [] := by
        intro e; rw [e] at hb'; cases hb'
      have hNpos : 0 < N := by
        have := hxslen hxsne; omega
      have h1 : idxScoreFrom N (a :: xs) n0 a = 1 - (n0 : ℚ) / (N : ℚ) :=
        idxScoreFrom_cons_eq rfl xs n0
      have hne : ¬ a = b := fun e => hx (e ▸ hb')
      have h2 : idxScoreFrom N (a :: xs) n0 b =
          idxScoreFrom N xs (n0 + 1) b := idxScoreFrom_cons_ne hne xs n0
      have h3 : idxScoreFrom N xs (n0 + 1) b ≤
          1 - ((n0 + 1 : ℕ) : ℚ) / (N : ℚ) :=
        idxScoreFrom_le_of_mem N xs (n0 + 1) hb'
      have h4 : ((n0 : ℕ) : ℚ) / (N : ℚ) < ((n0 + 1 : ℕ) : ℚ) / (N : ℚ) :=
        div_cast_strict (Nat.lt_succ_self n0) hNpos
      rw [h1, h2] at heq
      rw [← heq] at h3
      push_cast at h3 h4
      linarith
    · subst hbx
      exfalso
      have hxsne : xs ≠ [] := by
        intro e; rw [e] at ha'; cases ha'
      have hNpos : 0 < N := by
        have := hxslen hxsne; omega
      have h1 : idxScoreFrom N (b :: xs) n0 b = 1 - (n0 : ℚ) / (N : ℚ) :=
        idxScoreFrom_cons_eq rfl xs n0
      have hne : ¬ b = a := fun e => hx (e ▸ ha')
      have h2 : idxScoreFrom N (b :: xs) n0 a =
          idxScoreFrom N xs (n0 + 1) a := idxScoreFrom_cons_ne hne xs n0
      have h3 : idxScoreFrom N xs (n0 + 1) a ≤
          1 - ((n0 + 1 : ℕ) : ℚ) / (N : ℚ) :=
        idxScoreFrom_le_of_mem N xs (n0 + 1) ha'
      have h4 : ((n0 : ℕ) : ℚ) / (N : ℚ) < ((n0 + 1 : ℕ) : ℚ) / (N : ℚ) :=
        div_cast_strict (Nat.lt_succ_self n0) hNpos
      rw [h1, h2] at heq
      rw [heq] at h3
      push_cast at h3 h4
      linarith
    · have hnea : ¬ x = a := fun e => hx (e ▸ ha')
      have hneb : ¬ x = b := fun e => hx (e ▸ hb')
      rw [idxScoreFrom_cons_ne hnea, idxScoreFrom_cons_ne hneb] at heq
      refine ih hxs (n0 + 1) ?_ a ha' b hb' heq
      simp only [List.length_cons] at hb
      omega

/-- On a duplicate-free list, distinct elements get distinct spec
position scores. -/
theorem specPosScore_injOn {l : List String} (hl : l.Nodup) {a b : String}
    (ha : a ∈ l) (hb : b ∈ l)
    (h : specPosScore l a = specPosScore l b) : a = b := by
  refine idxScoreFrom_injOn l.length l hl 0 (by simp) a ha b hb ?_
  rw [← specPosScore_eq_idx, ← specPosScore_eq_idx]
  exact h

/-! ## The two degenerate weights -/

/-- At `vector_weight = 1.0` the fusion returns the dense list followed
by the lexical-only items (which all carry fused score `0`). -/
theorem combine_weight_one {dense lex : List String}
    (hd : dense.Nodup) (hl : lex.Nodup) :
    combineSearchResults dense lex 1 =
      dense ++ lex.filter (fun c => ¬ c ∈ dense) := by
  rw [combine_eq_spec 1 hd hl]
  have hsc : (specUnion dense lex).map
      (fun c => (c, specFusedScore dense lex 1 c)) =
      posScores dense ++
        (lex.filter (fun c => ¬ c ∈ dense)).map (fun c => (c, (0 : ℚ))) := by
    unfold specUnion
    rw [List.map_append]
    congr 1
    · rw [← map_specPosScore hd]
      apply List.map_congr_left
      intro c _
      simp [specFusedScore]
    · apply List.map_congr_left
      intro c hc
      have hcd : ¬ c ∈ dense := by
        have := (List.mem_filter.mp hc).2
        simpa using this
      simp [specFusedScore, specPosScore_of_not_mem hcd]
  rw [hsc]
  have hpw : List.Pairwise descOrd (posScores dense ++
      (lex.filter (fun c => ¬ c ∈ dense)).map (fun c => (c, (0 : ℚ)))) := by
    rw [List.pairwise_append]
    refine ⟨posScoresAux_pairwise dense.length dense 0, pairwise_zeros _, ?_⟩
    intro a ha b hb
    rcases List.mem_map.mp hb with ⟨c, _, rfl⟩
    show (0 : ℚ) ≤ a.2
    exact le_of_lt (posScoresAux_pos dense.length dense 0 (by simp) a ha)
  rw [sortDesc_eq_of_pairwise hpw, List.map_append]
  congr 1
  · exact posScoresAux_map_fst dense.length dense 0
  · rw [List.map_map]
    exact (List.map_congr_left (fun c _ => rfl)).trans (List.map_id _)

/-- Filtering through a predicate with at most one satisfier gives the
same result on any permutation of a duplicate-free list. -/
theorem filter_eq_of_perm_subsingleton {l1 l2 : List String}
    (hperm : l1.Perm l2) (hn : l1.Nodup) (p : String → Bool)
    (hu : ∀ a ∈ l1, ∀ b ∈ l1, p a = true → p b = true → a = b) :
    l1.filter p = l2.filter p := by
  have hpf : (l1.filter p).Perm (l2.filter p) := hperm.filter p
  cases o : l1.filter p with
  | nil =>
    rw [o] at hpf
    exact (List.Perm.eq_nil hpf.symm).symm
  | cons a t =>
    have hmem : ∀ x ∈ l1.filter p, x = a := by
      intro x hx
      have hxl := List.mem_filter.mp hx
      have hal : a ∈ l1.filter p := by
        rw [o]; exact List.mem_cons_self a t
      have hala := List.mem_filter.mp hal
      exact hu x hxl.1 a hala.1 hxl.2 hala.2
    have ht : t = [] := by
      cases t with
      | nil => rfl
      | cons y u =>
        exfalso
        have hy : y ∈ l1.filter p := by
          rw [o]
          exact List.mem_cons_of_mem a (List.mem_cons_self y u)
        have hya : y = a := hmem y hy
        have hnd : (l1.filter p).Nodup := hn.filter p
        rw [o] at hnd
        rcases List.nodup_cons.mp hnd with ⟨hna, _⟩
        apply hna
        rw [← hya]
        exact List.mem_cons_self y u
    subst ht
    rw [o] at hpf
    exact ((List.perm_singleton).mp hpf.symm).symm

/-- At `vector_weight = 0.0` the fusion returns the lexical list
followed by the dense-only items (which all carry fused score `0`). -/
theorem combine_weight_zero {dense lex : List String}
    (hd : dense.Nodup) (hl : lex.Nodup) :
    combineSearchResults dense lex 0 =
      lex ++ dense.filter (fun c => ¬ c ∈ lex) := by
  rw [combine_eq_spec 0 hd hl]
  have hsc : (specUnion dense lex).map
      (fun c => (c, specFusedScore dense lex 0 c)) =
      (specUnion dense lex).map (fun c => (c, specPosScore lex c)) := by
    apply List.map_congr_left
    intro c _
    simp [specFusedScore]
  rw [hsc]
  have hC0eq : posScores lex ++
      (dense.filter (fun c => ¬ c ∈ lex)).map (fun c => (c, (0 : ℚ))) =
      (lex ++ dense.filter (fun c => ¬ c ∈ lex)).map
        (fun c => (c, specPosScore lex c)) := by
    rw [List.map_append]
    congr 1
    · exact (map_specPosScore hl).symm
    · apply List.map_congr_left
      intro c hc
      have hcl : ¬ c ∈ lex := by
        have := (List.mem_filter.mp hc).2
        simpa using this
      rw [specPosScore_of_not_mem hcl]
  have hC0pw : List.Pairwise descOrd (posScores lex ++
      (dense.filter (fun c => ¬ c ∈ lex)).map (fun c => (c, (0 : ℚ)))) := by
    rw [List.pairwise_append]
    refine ⟨posScoresAux_pairwise lex.length lex 0, pairwise_zeros _, ?_⟩
    intro a ha b hb
    rcases List.mem_map.mp hb with ⟨c, _, rfl⟩
    show (0 : ℚ) ≤ a.2
    exact le_of_lt (posScoresAux_pos lex.length lex 0 (by simp) a ha)
  have hnodup1 : (dense ++ lex.filter (fun c => ¬ c ∈ dense)).Nodup := by
    refine hd.append (hl.filter _) ?_
    intro a ha hb
    have := (List.mem_filter.mp hb).2
    simp only [decide_eq_true_eq] at this
    exact this ha
  have hnodup2 : (lex ++ dense.filter (fun c => ¬ c ∈ lex)).Nodup := by
    refine hl.append (hd.filter _) ?_
    intro a ha hb
    have := (List.mem_filter.mp hb).2
    simp only [decide_eq_true_eq] at this
    exact this ha
  have hperm : (specUnion dense lex).Perm
      (lex ++ dense.filter (fun c => ¬ c ∈ lex)) := by
    rw [specUnion]
    refine (List.perm_ext_iff_of_nodup hnodup1 hnodup2).mpr ?_
    intro a
    simp only [List.mem_append, List.mem_filter, decide_eq_true_eq]
    tauto
  have hkey : sortDesc ((specUnion dense lex).map
      (fun c => (c, specPosScore lex c))) =
      posScores lex ++ (dense.filter (fun c => ¬ c ∈ lex)).map
        (fun c => (c, (0 : ℚ))) := by
    apply stable_sorted_unique (sortDesc_pairwise _) hC0pw
    intro s
    rw [sortDesc_filter, hC0eq, List.filter_map, List.filter_map]
    congr 1
    by_cases hs : s = 0
    · subst hs
      rw [specUnion, List.filter_append, List.filter_append]
      have h1 : (lex.filter (fun c => ¬ c ∈ dense)).filter
          ((fun x : String × ℚ => x.2 = 0) ∘
            (fun c => (c, specPosScore lex c))) = [] := by
        rw [List.filter_eq_nil_iff]
        intro c hc
        have hcl : c ∈ lex := (List.mem_filter.mp hc).1
        simp only [Function.comp_apply, decide_eq_true_eq]
        exact ne_of_gt (specPosScore_pos hcl)
      have h2 : lex.filter ((fun x : String × ℚ => x.2 = 0) ∘
          (fun c => (c, specPosScore lex c))) = [] := by
        rw [List.filter_eq_nil_iff]
        intro c hc
        simp only [Function.comp_apply, decide_eq_true_eq]
        exact ne_of_gt (specPosScore_pos hc)
      have h3 : dense.filter ((fun x : String × ℚ => x.2 = 0) ∘
          (fun c => (c, specPosScore lex c))) =
          dense.filter (fun c => ¬ c ∈ lex) := by
        apply List.filter_congr
        intro c _
        by_cases hcl : c ∈ lex
        · simp [Function.comp_apply, hcl, ne_of_gt (specPosScore_pos hcl)]
        · simp [Function.comp_apply, hcl, specPosScore_of_not_mem hcl]
      have h4 : (dense.filter (fun c => ¬ c ∈ lex)).filter
          ((fun x : String × ℚ => x.2 = 0) ∘
            (fun c => (c, specPosScore lex c))) =
          dense.filter (fun c => ¬ c ∈ lex) := by
        rw [List.filter_eq_self]
        intro c hc
        have hcl : ¬ c ∈ lex := by
          have := (List.mem_filter.mp hc).2
          simpa using this
        simp [Function.comp_apply, specPosScore_of_not_mem hcl]
      rw [h1, h2, h3, h4]
      simp
    · refine filter_eq_of_perm_subsingleton hperm hnodup1 _ ?_
      intro a ha b hb hpa hpb
      simp only [Function.comp_apply, decide_eq_true_eq] at hpa hpb
      have hal : a ∈ lex := by
        by_contra hno
        rw [specPosScore_of_not_mem hno] at hpa
        exact hs hpa.symm
      have hbl : b ∈ lex := by
        by_contra hno
        rw [specPosScore_of_not_mem hno] at hpb
        exact hs hpb.symm
      exact specPosScore_injOn hl hal hbl (hpa.trans hpb.symm)
  rw [hkey, List.map_append]
  congr 1
  · exact posScoresAux_map_fst lex.length lex 0
  · rw [List.map_map]
    exact (List.map_congr_left (fun c _ => rfl)).trans (List.map_id _)

/-! ## Claim C4 -/

/-- C4 counterexample: with dense `["A"]`, lexical `["B"]` and `k = 2`,
`hybrid_search` at `vector_weight = 1.0` returns `["A", "B"]` — the
lexical-only item `B` (fused score `0`) is appended after the dense
items, not excluded — refuting "returns exactly the dense list's order
with lexical-only items excluded" (which would be `["A"]`).  The
symmetric refutation holds at `vector_weight = 0.0`. -/
theorem hybrid_pure_weight_counterexample :
    hybridSearch ["A"] ["B"] 2 1 = ["A", "B"] ∧
    ¬ hybridSearch ["A"] ["B"] 2 1 = ["A"] ∧
    hybridSearch ["B"] ["A"] 2 0 = ["A", "B"] ∧
    ¬ hybridSearch ["B"] ["A"] 2 0 = ["A"] := by
  have h1 : hybridSearch ["A"] ["B"] 2 1 = ["A", "B"] := by
    unfold hybridSearch
    rw [combine_weight_one (by decide) (by decide)]
    decide
  have h0 : hybridSearch ["B"] ["A"] 2 0 = ["A", "B"] := by
    unfold hybridSearch
    rw [combine_weight_zero (by decide) (by decide)]
    decide
  refine ⟨h1, ?_, h0, ?_⟩
  · rw [h1]; decide
  · rw [h0]; decide

/-- C4 (amended): for duplicate-free candidate lists,
`hybrid_search` with `vector_weight = 1.0` returns the dense list
followed by the lexical-only items (in lexical order), truncated to
`k`; with `vector_weight = 0.0` it returns the lexical list followed by
the dense-only items (in dense order), truncated to `k`.  In
particular, whenever `k` does not exceed the corresponding list's
length the pure weights reproduce exactly that list's order with the
other list's exclusive items excluded. -/
theorem hybrid_pure_weights (dense lex : List String) (k : ℕ)
    (hd : dense.Nodup) (hl : lex.Nodup) :
    hybridSearch dense lex k 1 =
      (dense ++ lex.filter (fun c => ¬ c ∈ dense)).take k ∧
    hybridSearch dense lex k 0 =
      (lex ++ dense.filter (fun c => ¬ c ∈ lex)).take k ∧
    (k ≤ dense.length → hybridSearch dense lex k 1 = dense.take k) ∧
    (k ≤ lex.length → hybridSearch dense lex k 0 = lex.take k) := by
  have h1 : hybridSearch dense lex k 1 =
      (dense ++ lex.filter (fun c => ¬ c ∈ dense)).take k := by
    unfold hybridSearch
    rw [combine_weight_one hd hl]
  have h0 : hybridSearch dense lex k 0 =
      (lex ++ dense.filter (fun c => ¬ c ∈ lex)).take k := by
    unfold hybridSearch
    rw [combine_weight_zero hd hl]
  refine ⟨h1, h0, ?_, ?_⟩
  · intro hk
    rw [h1, List.take_append_of_le_length hk]
  · intro hk
    rw [h0, List.take_append_of_le_length hk]

/-- Witness for C4 (amended) at dense `["A"]`, lexical `["B"]`,
`k = 2`. -/
theorem hybrid_pure_weights_witness :
    (["A"] : List String).Nodup ∧ (["B"] : List String).Nodup ∧
    hybridSearch ["A"] ["B"] 2 1 =
      ((["A"] : List String) ++
        (["B"] : List String).filter
          (fun c => ¬ c ∈ (["A"] : List String))).take 2 :=
  ⟨by decide, by decide,
    (hybrid_pure_weights ["A"] ["B"] 2 (by decide) (by decide)).1⟩

/-! ## Cache tier basics -/

theorem lookupA_updA_self {α : Type} (l : List (String × α)) (k : String)
    (v : α) : lookupA (updA l k v) k = some v := by
  unfold lookupA updA
  simp [List.find?_cons]

theorem tierGet_updA_self (tier : Tier) (k : String) (v : CVal)
    (t now : ℕ) :
    tierGet (updA tier k (v, t)) now k =
      if now < t + TTL then some v else none := by
  unfold tierGet
  rw [lookupA_updA_self]

/-- If every parseable record on file is expired, the approximate-match
scan finds no candidate and returns `None`. -/
theorem checkSimilar_none_of_all_expired (S : CacheState) (now : ℕ)
    (v q : String)
    (h : ∀ p ∈ S.queryFiles, ∀ rec0 : QueryRec, p.2 = some rec0 →
      rec0.timestamp + TTL ≤ now) :
    checkSimilarQueries S now v q = none := by
  unfold checkSimilarQueries
  by_cases hf : S.listFails
  · simp [hf]
  · have hcand : candidateList S now v = [] := by
      unfold candidateList
      rw [List.filterMap_eq_nil_iff]
      intro p hp
      have hp' : p ∈ S.queryFiles := List.mem_of_mem_filter hp
      cases hrec : p.2 with
      | none => simp [candidateEntry, hrec]
      | some rec0 =>
        have hexp := h p hp' rec0 hrec
        simp [candidateEntry, hrec, hexp]
    simp [hf, hcand]

/-! ## Claim C2 -/

/-- C2: after `put_response(v, q, r)` at time `t0` into any prior state
whose records all carry timestamps at most `t0` (no intervening write,
monotone clock), `get_response(v, q)` at time `t1` returns `r` while
`t1 < t0 + TTL`, and returns absent once `t0 + TTL ≤ t1`. -/
theorem put_then_get (hash : String → String) (S : CacheState)
    (v q r : String) (t0 t1 : ℕ)
    (hS : ∀ p ∈ S.queryFiles, ∀ rec0 : QueryRec, p.2 = some rec0 →
      rec0.timestamp ≤ t0) :
    (t1 < t0 + TTL →
      (getResponse hash (cacheResponse hash S t0 v q r) t1 v q).1 =
        some r) ∧
    (t0 + TTL ≤ t1 →
      (getResponse hash (cacheResponse hash S t0 v q r) t1 v q).1 =
        none) := by
  constructor
  · intro hlt
    simp only [getResponse, cacheResponse]
    rw [tierGet_updA_self, if_pos hlt]
    rfl
  · intro hge
    have hnlt : ¬ t1 < t0 + TTL := not_lt.mpr hge
    have hm : tierGet
        (updA S.memory
          ("query:" ++ v ++ ":" ++ hash (normalizeQuery q))
          (.s r, t0)) t1
        ("query:" ++ v ++ ":" ++ hash (normalizeQuery q)) = none := by
      rw [tierGet_updA_self, if_neg hnlt]
    have hd : tierGet
        (updA S.disk
          ("query:" ++ v ++ ":" ++ hash (normalizeQuery q))
          (.s r, t0)) t1
        ("query:" ++ v ++ ":" ++ hash (normalizeQuery q)) = none := by
      rw [tierGet_updA_self, if_neg hnlt]
    have hfile : lookupA
        (updA S.queryFiles
          (v ++ "_" ++ hash (normalizeQuery q) ++ ".json")
          (some ⟨v, normalizeQuery q, r, t0⟩))
        (v ++ "_" ++ hash (normalizeQuery q) ++ ".json") =
        some (some ⟨v, normalizeQuery q, r, t0⟩) :=
      lookupA_updA_self _ _ _
    simp only [getResponse, cacheResponse, hm, hd, getResponseFile, hfile]
    rw [if_neg hnlt]
    apply checkSimilar_none_of_all_expired
    intro p hp rec0 hrec
    rcases List.mem_cons.mp hp with rfl | hp'
    · simp only [Option.some.injEq] at hrec
      subst hrec
      show t0 + TTL ≤ t1
      omega
    · have hp'' : p ∈ S.queryFiles := List.mem_of_mem_filter hp'
      have := hS p hp'' rec0 hrec
      omega

/-- Witness for C2: a fresh put at time `0` is visible at time
`TTL - 1` and absent at time `TTL`. -/
theorem put_then_get_witness :
    (∀ p ∈ (emptyState : CacheState).queryFiles,
      ∀ rec0 : QueryRec, p.2 = some rec0 → rec0.timestamp ≤ 0) ∧
    (getResponse (fun s => s)
      (cacheResponse (fun s => s) emptyState 0 "v" "hello world" "RESP")
      (TTL - 1) "v" "hello world").1 = some "RESP" ∧
    (getResponse (fun s => s)
      (cacheResponse (fun s => s) emptyState 0 "v" "hello world" "RESP")
      TTL "v" "hello world").1 = none := by
  have hS : ∀ p ∈ (emptyState : CacheState).queryFiles,
      ∀ rec0 : QueryRec, p.2 = some rec0 → rec0.timestamp ≤ 0 := by
    intro p hp
    cases hp
  refine ⟨hS, ?_, ?_⟩
  · exact (put_then_get (fun s => s) emptyState "v" "hello world" "RESP"
      0 (TTL - 1) hS).1 (by decide)
  · exact (put_then_get (fun s => s) emptyState "v" "hello world" "RESP"
      0 TTL hS).2 (by decide)

/-! ## Claim C8 -/

/-- C8: two queries that agree after case-folding and
whitespace-collapsing derive the same fingerprint and address the same
cache entry — `get_response` and `put_response` behave identically on
them, in result and in state. -/
theorem query_normalization_same_entry (hash : String → String)
    (S : CacheState) (now : ℕ) (v q1 q2 r : String)
    (h : normalizeQuery q1 = normalizeQuery q2) :
    hash (normalizeQuery q1) = hash (normalizeQuery q2) ∧
    getResponse hash S now v q1 = getResponse hash S now v q2 ∧
    cacheResponse hash S now v q1 r = cacheResponse hash S now v q2 r := by
  refine ⟨by rw [h], ?_, ?_⟩
  · simp only [getResponse, h]
  · simp only [cacheResponse, h]

/-- Witness for C8 at the spec's example pair
`"  Hello   World  "` / `"hello world"`. -/
theorem query_normalization_same_entry_witness :
    normalizeQuery "  Hello   World  " = normalizeQuery "hello world" ∧
    getResponse (fun s => s) emptyState 0 "v" "  Hello   World  " =
      getResponse (fun s => s) emptyState 0 "v" "hello world" :=
  ⟨by decide,
    (query_normalization_same_entry (fun s => s) emptyState 0 "v"
      "  Hello   World  " "hello world" "r" (by decide)).2.1⟩

/-! ## Claim C5 -/

/-- C5: `has_processed_video` probes memory, then disk, then the flat
file, in that order: the result is true iff one of the three probes
(with TTL validity) hits; a memory hit writes nothing; a disk hit
promotes into memory only; a valid file hit promotes into memory and
disk; an expired file record yields false with no write; and a miss in
all three tiers (absent or corrupt file) yields false with no write. -/
theorem has_processed_tier_contract (S : CacheState) (now : ℕ)
    (v : String) :
    ((hasProcessedVideo S now v).1 = true ↔
      ((tierGet S.memory now ("video_processed:" ++ v)).isSome = true ∨
        (tierGet S.disk now ("video_processed:" ++ v)).elim false truthy
          = true ∨
        (∃ rec0 : VideoRec,
          lookupA S.videoFiles (v ++ ".json") = some (some rec0) ∧
          now < rec0.timestamp + TTL))) ∧
    ((tierGet S.memory now ("video_processed:" ++ v)).isSome = true →
      (hasProcessedVideo S now v).2 = S) ∧
    (tierGet S.memory now ("video_processed:" ++ v) = none →
      (tierGet S.disk now ("video_processed:" ++ v)).elim false truthy
        = true →
      (hasProcessedVideo S now v).2 =
        { S with
          memory :=
            updA S.memory ("video_processed:" ++ v) (.b true, now) }) ∧
    (tierGet S.memory now ("video_processed:" ++ v) = none →
      (tierGet S.disk now ("video_processed:" ++ v)).elim false truthy
        = false →
      ∀ rec0 : VideoRec,
        lookupA S.videoFiles (v ++ ".json") = some (some rec0) →
        (now < rec0.timestamp + TTL →
          (hasProcessedVideo S now v).2 =
            { S with
              memory :=
                updA S.memory ("video_processed:" ++ v) (.b true, now)
              disk :=
                updA S.disk ("video_processed:" ++ v) (.b true, now) }) ∧
        (¬ now < rec0.timestamp + TTL →
          (hasProcessedVideo S now v).1 = false ∧
          (hasProcessedVideo S now v).2 = S)) ∧
    (tierGet S.memory now ("video_processed:" ++ v) = none →
      (tierGet S.disk now ("video_processed:" ++ v)).elim false truthy
        = false →
      (lookupA S.videoFiles (v ++ ".json") = none ∨
        lookupA S.videoFiles (v ++ ".json") = some none) →
      (hasProcessedVideo S now v).1 = false ∧
      (hasProcessedVideo S now v).2 = S) := by
  cases hmem : tierGet S.memory now ("video_processed:" ++ v) with
  | some val =>
    have hres : hasProcessedVideo S now v = (true, S) := by
      simp only [hasProcessedVideo, hmem]
    refine ⟨?_, ?_, ?_, ?_, ?_⟩
    · rw [hres]; simp
    · intro _; rw [hres]
    · intro h0; exact Option.noConfusion h0
    · intro h0; exact Option.noConfusion h0
    · intro h0; exact Option.noConfusion h0
  | none =>
    cases hdisk : (tierGet S.disk now ("video_processed:" ++ v)).elim
        false truthy with
    | true =>
      have hres : hasProcessedVideo S now v = (true,
          { S with
            memory :=
              updA S.memory ("video_processed:" ++ v) (.b true, now) }) := by
        simp only [hasProcessedVideo, hmem, hdisk, if_true]
      refine ⟨?_, ?_, ?_, ?_, ?_⟩
      · rw [hres]; simp
      · intro h0; exact Bool.noConfusion h0
      · intro _ _; rw [hres]
      · intro _ h0; exact Bool.noConfusion h0
      · intro _ h0; exact Bool.noConfusion h0
    | false =>
      cases hfile : lookupA S.videoFiles (v ++ ".json") with
      | none =>
        have hres : hasProcessedVideo S now v = (false, S) := by
          simp only [hasProcessedVideo, hmem, hdisk, Bool.false_eq_true,
            if_false, hfile]
        refine ⟨?_, ?_, ?_, ?_, ?_⟩
        · rw [hres]; simp
        · intro h0; exact Bool.noConfusion h0
        · intro _ h0; exact Bool.noConfusion h0
        · intro _ _ rec0 h1; exact Option.noConfusion h1
        · intro _ _ _; rw [hres]; exact ⟨rfl, rfl⟩
      | some orec =>
        cases orec with
        | none =>
          have hres : hasProcessedVideo S now v = (false, S) := by
            simp only [hasProcessedVideo, hmem, hdisk, Bool.false_eq_true,
              if_false, hfile]
          refine ⟨?_, ?_, ?_, ?_, ?_⟩
          · rw [hres]; simp
          · intro h0; exact Bool.noConfusion h0
          · intro _ h0; exact Bool.noConfusion h0
          · intro _ _ rec0 h1
            simp only [Option.some.injEq] at h1
            exact Option.noConfusion h1
          · intro _ _ _; rw [hres]; exact ⟨rfl, rfl⟩
        | some rec0 =>
          by_cases htime : now < rec0.timestamp + TTL
          · have hres : hasProcessedVideo S now v = (true,
                { S with
                  memory :=
                    updA S.memory ("video_processed:" ++ v) (.b true, now)
                  disk :=
                    updA S.disk ("video_processed:" ++ v)
                      (.b true, now) }) := by
              simp only [hasProcessedVideo, hmem, hdisk,
                Bool.false_eq_true, if_false, hfile, if_pos htime]
            refine ⟨?_, ?_, ?_, ?_, ?_⟩
            · rw [hres]; simp [htime]
            · intro h0; exact Bool.noConfusion h0
            · intro _ h0; exact Bool.noConfusion h0
            · intro _ _ rec1 h1
              simp only [Option.some.injEq] at h1
              subst h1
              exact ⟨fun _ => by rw [hres], fun hno => absurd htime hno⟩
            · intro _ _ h1
              rcases h1 with h1 | h1
              · exact Option.noConfusion h1
              · simp only [Option.some.injEq] at h1
                exact Option.noConfusion h1
          · have hres : hasProcessedVideo S now v = (false, S) := by
              simp only [hasProcessedVideo, hmem, hdisk,
                Bool.false_eq_true, if_false, hfile, if_neg htime]
            refine ⟨?_, ?_, ?_, ?_, ?_⟩
            · rw [hres]; simp [htime]
            · intro h0; exact Bool.noConfusion h0
            · intro _ h0; exact Bool.noConfusion h0
            · intro _ _ rec1 h1
              simp only [Option.some.injEq] at h1
              subst h1
              exact ⟨fun hyes => absurd hyes htime,
                fun _ => by rw [hres]; exact ⟨rfl, rfl⟩⟩
            · intro _ _ h1
              rcases h1 with h1 | h1
              · exact Option.noConfusion h1
              · simp only [Option.some.injEq] at h1
                exact Option.noConfusion h1

/-- Witness for C5: a valid flat-file record (memory and disk cold) is
promoted into both faster tiers and reports true. -/
theorem has_processed_tier_contract_witness :
    (hasProcessedVideo
      { emptyState with
        videoFiles := [("w.json", some ⟨"w", 3, true⟩)] } 5 "w").2 =
      { ({ emptyState with
          videoFiles := [("w.json", some ⟨"w", 3, true⟩)] } : CacheState)
          with
        memory := updA [] ("video_processed:" ++ "w") (.b true, 5)
        disk := updA [] ("video_processed:" ++ "w") (.b true, 5) } :=
  (((has_processed_tier_contract
      { emptyState with videoFiles := [("w.json", some ⟨"w", 3, true⟩)] }
      5 "w").2.2.2.1 (by decide) (by decide) ⟨"w", 3, true⟩
      (by decide)).1 (by decide))

/-! ## Claim C6 -/

/-- The file branch of `get_cached_response`: absence implies the file
tier missed (absent, corrupt, or expired) and the fallback failed; and
a file-tier miss hands over to the fallback with no state change. -/
theorem getResponseFile_miss (S : CacheState) (now : ℕ)
    (v nq h k : String) :
    ((getResponseFile S now v nq h k).1 = none →
      (lookupA S.queryFiles (v ++ "_" ++ h ++ ".json") = none ∨
        lookupA S.queryFiles (v ++ "_" ++ h ++ ".json") = some none ∨
        ∃ rec0 : QueryRec,
          lookupA S.queryFiles (v ++ "_" ++ h ++ ".json") =
            some (some rec0) ∧
          rec0.timestamp + TTL ≤ now) ∧
      checkSimilarQueries S now v nq = none) ∧
    ((lookupA S.queryFiles (v ++ "_" ++ h ++ ".json") = none ∨
        lookupA S.queryFiles (v ++ "_" ++ h ++ ".json") = some none ∨
        ∃ rec0 : QueryRec,
          lookupA S.queryFiles (v ++ "_" ++ h ++ ".json") =
            some (some rec0) ∧
          rec0.timestamp + TTL ≤ now) →
      getResponseFile S now v nq h k =
        (checkSimilarQueries S now v nq, S)) := by
  cases hfile : lookupA S.queryFiles (v ++ "_" ++ h ++ ".json") with
  | none =>
    have hres : getResponseFile S now v nq h k =
        (checkSimilarQueries S now v nq, S) := by
      simp only [getResponseFile, hfile]
    rw [hres]
    exact ⟨fun h0 => ⟨Or.inl rfl, h0⟩, fun _ => rfl⟩
  | some orec =>
    cases orec with
    | none =>
      have hres : getResponseFile S now v nq h k =
          (checkSimilarQueries S now v nq, S) := by
        simp only [getResponseFile, hfile]
      rw [hres]
      exact ⟨fun h0 => ⟨Or.inr (Or.inl rfl), h0⟩, fun _ => rfl⟩
    | some rec0 =>
      by_cases htime : now < rec0.timestamp + TTL
      · have hres1 : (getResponseFile S now v nq h k).1 =
            some rec0.response := by
          simp only [getResponseFile, hfile, if_pos htime]
          by_cases hr : rec0.response ≠ "" <;> simp [hr]
        constructor
        · intro h0
          rw [hres1] at h0
          exact Option.noConfusion h0
        · intro hmiss
          rcases hmiss with h1 | h1 | ⟨rec1, h1, hexp⟩
          · exact Option.noConfusion h1
          · simp only [Option.some.injEq] at h1
            exact Option.noConfusion h1
          · simp only [Option.some.injEq] at h1
            subst h1
            omega
      · have hres : getResponseFile S now v nq h k =
            (checkSimilarQueries S now v nq, S) := by
          simp only [getResponseFile, hfile, if_neg htime]
        rw [hres]
        refine ⟨fun h0 => ⟨Or.inr (Or.inr ⟨rec0, rfl, by omega⟩), h0⟩,
          fun _ => rfl⟩

/-- Shared helper: `get_response` reports absence only after the exact
lookup has missed (or expired) in memory, disk and file tier and the
approximate fallback has also returned absent; and on every full exact
miss the result is exactly the fallback's answer (no state change). -/
theorem getResponse_miss_contract (hash : String → String) (S : CacheState)
    (now : ℕ) (v q : String) :
    ((getResponse hash S now v q).1 = none →
      tierGet S.memory now
        ("query:" ++ v ++ ":" ++ hash (normalizeQuery q)) = none ∧
      (tierGet S.disk now
        ("query:" ++ v ++ ":" ++ hash (normalizeQuery q))).elim True
          (fun val => truthy val = false) ∧
      (lookupA S.queryFiles
          (v ++ "_" ++ hash (normalizeQuery q) ++ ".json") = none ∨
        lookupA S.queryFiles
          (v ++ "_" ++ hash (normalizeQuery q) ++ ".json") = some none ∨
        ∃ rec0 : QueryRec,
          lookupA S.queryFiles
            (v ++ "_" ++ hash (normalizeQuery q) ++ ".json") =
            some (some rec0) ∧
          rec0.timestamp + TTL ≤ now) ∧
      checkSimilarQueries S now v (normalizeQuery q) = none) ∧
    (tierGet S.memory now
        ("query:" ++ v ++ ":" ++ hash (normalizeQuery q)) = none →
      (tierGet S.disk now
        ("query:" ++ v ++ ":" ++ hash (normalizeQuery q))).elim True
          (fun val => truthy val = false) →
      (lookupA S.queryFiles
          (v ++ "_" ++ hash (normalizeQuery q) ++ ".json") = none ∨
        lookupA S.queryFiles
          (v ++ "_" ++ hash (normalizeQuery q) ++ ".json") = some none ∨
        ∃ rec0 : QueryRec,
          lookupA S.queryFiles
            (v ++ "_" ++ hash (normalizeQuery q) ++ ".json") =
            some (some rec0) ∧
          rec0.timestamp + TTL ≤ now) →
      getResponse hash S now v q =
        (checkSimilarQueries S now v (normalizeQuery q), S)) := by
  cases hmem : tierGet S.memory now
      ("query:" ++ v ++ ":" ++ hash (normalizeQuery q)) with
  | some val =>
    have hres : getResponse hash S now v q = (cvalAsResponse val, S) := by
      simp only [getResponse, hmem]
    constructor
    · intro h0
      rw [hres] at h0
      cases val <;> exact Option.noConfusion h0
    · intro h0
      exact Option.noConfusion h0
  | none =>
    cases hdisk : tierGet S.disk now
        ("query:" ++ v ++ ":" ++ hash (normalizeQuery q)) with
    | some val =>
      by_cases htr : truthy val = true
      · have hres : getResponse hash S now v q = (cvalAsResponse val,
            { S with
              memory := updA S.memory
                ("query:" ++ v ++ ":" ++ hash (normalizeQuery q))
                (val, now) }) := by
          simp only [getResponse, hmem, hdisk]
          rw [if_pos htr]
        constructor
        · intro h0
          rw [hres] at h0
          cases val <;> exact Option.noConfusion h0
        · intro _ h1 _
          have h1' : truthy val = false := h1
          rw [htr] at h1'
          exact Bool.noConfusion h1'
      · have hres : getResponse hash S now v q =
            getResponseFile S now v (normalizeQuery q)
              (hash (normalizeQuery q))
              ("query:" ++ v ++ ":" ++ hash (normalizeQuery q)) := by
          simp only [getResponse, hmem, hdisk]
          rw [if_neg htr]
        rw [hres]
        have hf := getResponseFile_miss S now v (normalizeQuery q)
          (hash (normalizeQuery q))
          ("query:" ++ v ++ ":" ++ hash (normalizeQuery q))
        constructor
        · intro h0
          have hm := hf.1 h0
          exact ⟨rfl, Bool.eq_false_iff.mpr htr, hm.1, hm.2⟩
        · intro _ _ hmiss
          exact hf.2 hmiss
    | none =>
      have hres : getResponse hash S now v q =
          getResponseFile S now v (normalizeQuery q)
            (hash (normalizeQuery q))
            ("query:" ++ v ++ ":" ++ hash (normalizeQuery q)) := by
        simp only [getResponse, hmem, hdisk]
      rw [hres]
      have hf := getResponseFile_miss S now v (normalizeQuery q)
        (hash (normalizeQuery q))
        ("query:" ++ v ++ ":" ++ hash (normalizeQuery q))
      constructor
      · intro h0
        have hm := hf.1 h0
        exact ⟨rfl, trivial, hm.1, hm.2⟩
      · intro _ _ hmiss
        exact hf.2 hmiss

/-- C6: `get_response` reports absence only after the exact lookup has
missed (or expired) in memory, disk and file tier and the approximate
fallback has also returned absent; and the fallback is consulted — and
its answer returned unchanged, with no state change — on every full
exact miss. -/
theorem get_absent_contract (hash : String → String) (S : CacheState)
    (now : ℕ) (v q : String) :
    ((getResponse hash S now v q).1 = none →
      tierGet S.memory now
        ("query:" ++ v ++ ":" ++ hash (normalizeQuery q)) = none ∧
      (tierGet S.disk now
        ("query:" ++ v ++ ":" ++ hash (normalizeQuery q))).elim True
          (fun val => truthy val = false) ∧
      (lookupA S.queryFiles
          (v ++ "_" ++ hash (normalizeQuery q) ++ ".json") = none ∨
        lookupA S.queryFiles
          (v ++ "_" ++ hash (normalizeQuery q) ++ ".json") = some none ∨
        ∃ rec0 : QueryRec,
          lookupA S.queryFiles
            (v ++ "_" ++ hash (normalizeQuery q) ++ ".json") =
            some (some rec0) ∧
          rec0.timestamp + TTL ≤ now) ∧
      checkSimilarQueries S now v (normalizeQuery q) = none) ∧
    (tierGet S.memory now
        ("query:" ++ v ++ ":" ++ hash (normalizeQuery q)) = none →
      (tierGet S.disk now
        ("query:" ++ v ++ ":" ++ hash (normalizeQuery q))).elim True
          (fun val => truthy val = false) →
      (lookupA S.queryFiles
          (v ++ "_" ++ hash (normalizeQuery q) ++ ".json") = none ∨
        lookupA S.queryFiles
          (v ++ "_" ++ hash (normalizeQuery q) ++ ".json") = some none ∨
        ∃ rec0 : QueryRec,
          lookupA S.queryFiles
            (v ++ "_" ++ hash (normalizeQuery q) ++ ".json") =
            some (some rec0) ∧
          rec0.timestamp + TTL ≤ now) →
      getResponse hash S now v q =
        (checkSimilarQueries S now v (normalizeQuery q), S)) :=
  getResponse_miss_contract hash S now v q

/-- Witness for C6: on an entirely cold cache, `get_response` returns
exactly what the fallback returns, with no state change. -/
theorem get_absent_contract_witness :
    getResponse (fun s => s) emptyState 0 "v" "some query" =
      (checkSimilarQueries emptyState 0 "v"
        (normalizeQuery "some query"), emptyState) :=
  (get_absent_contract (fun s => s) emptyState 0 "v" "some query").2
    (by decide) (by exact trivial) (Or.inl (by decide))

/-! ## Claim C9 -/

/-- A corrupt (unparseable) record anywhere in the queries directory
contributes nothing to the candidate pool. -/
theorem candidateList_ignores_corrupt (S : CacheState) (now : ℕ)
    (v fname : String) (l1 l2 : List (String × Option QueryRec))
    (hq : S.queryFiles = l1 ++ (fname, none) :: l2) :
    candidateList S now v =
      candidateList { S with queryFiles := l1 ++ l2 } now v := by
  unfold candidateList
  rw [hq]
  have hqf : ({ S with queryFiles := l1 ++ l2 } : CacheState).queryFiles =
      l1 ++ l2 := rfl
  rw [hqf, List.filter_append, List.filter_append, List.filterMap_append,
    List.filterMap_append, List.filter_cons]
  by_cases hp : fileMatches v (fname, none) = true
  · rw [if_pos hp, List.filterMap_cons]
    rfl
  · rw [if_neg hp]

/-- C9: failure semantics of the cache-miss paths.  (a) A corrupt
candidate record anywhere in the scan is skipped and does not change the
fallback's answer; (b) a total enumeration failure makes the fallback
return absence rather than an error; (c) a corrupt exact query record
makes `get_response` fall through to the fallback with no state change
and no exception; (d) a corrupt video record makes `has_processed`
return false with no state change and no exception.  All operations are
total functions of the model. -/
theorem fallback_failure_semantics (hash : String → String)
    (S : CacheState) (now : ℕ) (v q fname : String)
    (l1 l2 : List (String × Option QueryRec)) :
    (S.queryFiles = l1 ++ (fname, none) :: l2 →
      checkSimilarQueries S now v q =
        checkSimilarQueries { S with queryFiles := l1 ++ l2 } now v q) ∧
    (S.listFails = true → checkSimilarQueries S now v q = none) ∧
    (tierGet S.memory now
        ("query:" ++ v ++ ":" ++ hash (normalizeQuery q)) = none →
      (tierGet S.disk now
        ("query:" ++ v ++ ":" ++ hash (normalizeQuery q))).elim True
          (fun val => truthy val = false) →
      lookupA S.queryFiles
        (v ++ "_" ++ hash (normalizeQuery q) ++ ".json") = some none →
      getResponse hash S now v q =
        (checkSimilarQueries S now v (normalizeQuery q), S)) ∧
    (tierGet S.memory now ("video_processed:" ++ v) = none →
      (tierGet S.disk now ("video_processed:" ++ v)).elim false truthy
        = false →
      lookupA S.videoFiles (v ++ ".json") = some none →
      hasProcessedVideo S now v = (false, S)) := by
  refine ⟨?_, ?_, ?_, ?_⟩
  · intro hq
    have hc := candidateList_ignores_corrupt S now v fname l1 l2 hq
    have hLF : ({ S with queryFiles := l1 ++ l2 } : CacheState).listFails =
        S.listFails := rfl
    simp only [checkSimilarQueries, hc, hLF]
  · intro hf
    simp only [checkSimilarQueries, hf, if_true]
  · intro h1 h2 h3
    exact (getResponse_miss_contract hash S now v q).2 h1 h2
      (Or.inr (Or.inl h3))
  · intro h1 h2 h3
    simp only [hasProcessedVideo, h1, h2, Bool.false_eq_true, if_false, h3]

/-- Witness for C9: an enumeration failure yields absence; and adding a
corrupt record to a concrete store leaves the fallback's answer
unchanged. -/
theorem fallback_failure_semantics_witness :
    checkSimilarQueries { emptyState with listFails := true } 0 "v" "q"
      = none ∧
    checkSimilarQueries
      { emptyState with queryFiles := [("v_bad.json", none)] } 0 "v" "q" =
      checkSimilarQueries
        { emptyState with queryFiles := ([] : List (String × Option QueryRec)) }
        0 "v" "q" :=
  ⟨(fallback_failure_semantics (fun s => s)
      { emptyState with listFails := true } 0 "v" "q" "f" [] []).2.1 rfl,
    (fallback_failure_semantics (fun s => s)
      { emptyState with queryFiles := [("v_bad.json", none)] } 0 "v" "q"
      "v_bad.json" [] []).1 rfl⟩

/-! ## Claim C3: the similarity scan -/

theorem similarStep_of_not_valid (wq : Finset String)
    (acc : Option (String × String) × ℚ) (c : String × String)
    (h : tokenSet (pyLower c.1) = ∅ ∨ wq = ∅) :
    similarStep wq acc c = acc := by
  simp only [similarStep]
  rw [if_pos h]

theorem similarStep_of_valid (wq : Finset String)
    (acc : Option (String × String) × ℚ) (c : String × String)
    (h : validQ wq c) :
    similarStep wq acc c =
      if simQ wq c > acc.2 then (some c, simQ wq c) else acc := by
  simp only [similarStep]
  rw [if_neg h]
  have huni : (0 : ℚ) <
      (((wq ∪ tokenSet (pyLower c.1)).card : ℕ) : ℚ) := by
    have hne : wq ≠ ∅ := fun e => h (Or.inr e)
    have hnon : (wq ∪ tokenSet (pyLower c.1)).Nonempty := by
      rcases Finset.nonempty_iff_ne_empty.mpr hne with ⟨x, hx⟩
      exact ⟨x, Finset.mem_union_left _ hx⟩
    exact_mod_cast Finset.card_pos.mpr hnon
  rw [if_pos huni]
  rfl

/-- Invariant of the best-match fold: the running score never
decreases, bounds every scored candidate's similarity, and the final
best is either the initial accumulator (untouched) or a scored
candidate achieving the final score strictly above the initial one. -/
theorem similar_fold_good (wq : Finset String) :
    ∀ (cands : List (String × String)) (b0 : Option (String × String))
      (s0 : ℚ),
      s0 ≤ (cands.foldl (similarStep wq) (b0, s0)).2 ∧
      (∀ c ∈ cands, validQ wq c →
        simQ wq c ≤ (cands.foldl (similarStep wq) (b0, s0)).2) ∧
      ((cands.foldl (similarStep wq) (b0, s0)).1 = b0 ∧
        (cands.foldl (similarStep wq) (b0, s0)).2 = s0 ∨
       ∃ c ∈ cands, validQ wq c ∧
         (cands.foldl (similarStep wq) (b0, s0)).1 = some c ∧
         (cands.foldl (similarStep wq) (b0, s0)).2 = simQ wq c ∧
         s0 < simQ wq c) := by
  intro cands
  induction cands with
  | nil =>
    intro b0 s0
    exact ⟨le_refl _, fun c hc => absurd hc (List.not_mem_nil c),
      Or.inl ⟨rfl, rfl⟩⟩
  | cons c cs ih =>
    intro b0 s0
    by_cases hv : validQ wq c
    · rw [List.foldl_cons, similarStep_of_valid wq (b0, s0) c hv]
      by_cases himp : simQ wq c > (b0, s0).2
      · rw [if_pos himp]
        rcases ih (some c) (simQ wq c) with ⟨ha, hb, hc3⟩
        refine ⟨le_trans (le_of_lt himp) ha, ?_, ?_⟩
        · intro c' hc' hv'
          rcases List.mem_cons.mp hc' with rfl | hc'
          · exact ha
          · exact hb c' hc' hv'
        · rcases hc3 with ⟨h1, h2⟩ | ⟨c', hc', hv', h1, h2, h3⟩
          · exact Or.inr ⟨c, List.mem_cons_self c cs, hv, h1, h2, himp⟩
          · exact Or.inr ⟨c', List.mem_cons_of_mem c hc', hv', h1, h2,
              lt_trans himp h3⟩
      · rw [if_neg himp]
        rcases ih b0 s0 with ⟨ha, hb, hc3⟩
        refine ⟨ha, ?_, ?_⟩
        · intro c' hc' hv'
          rcases List.mem_cons.mp hc' with rfl | hc'
          · exact le_trans (le_of_not_lt himp) ha
          · exact hb c' hc' hv'
        · rcases hc3 with h | ⟨c', hc', rest⟩
          · exact Or.inl h
          · exact Or.inr ⟨c', List.mem_cons_of_mem c hc', rest⟩
    · have hstep : similarStep wq (b0, s0) c = (b0, s0) :=
        similarStep_of_not_valid wq (b0, s0) c (not_not.mp hv)
      rw [List.foldl_cons, hstep]
      rcases ih b0 s0 with ⟨ha, hb, hc3⟩
      refine ⟨ha, ?_, ?_⟩
      · intro c' hc' hv'
        rcases List.mem_cons.mp hc' with rfl | hc'
        · exact absurd hv' hv
        · exact hb c' hc' hv'
      · rcases hc3 with h | ⟨c', hc', rest⟩
        · exact Or.inl h
        · exact Or.inr ⟨c', List.mem_cons_of_mem c hc', rest⟩

/-- C3 (amended): when enumeration succeeds, the fallback scores, by
Jaccard similarity over case-folded whitespace token sets, every record
of the candidate pool — the files whose names begin with `{video_id}_`
and end with `.json`, parse, are non-expired, and carry nonempty stored
query and response — skipping candidates where either token set is
empty; it returns the response of a maximum-similarity scored candidate
if some scored candidate's similarity strictly exceeds 0.5, and absence
if every scored candidate is at or below 0.5. -/
theorem similar_queries_threshold_contract (S : CacheState) (now : ℕ)
    (v q : String) (hnf : S.listFails = false) :
    (∀ r, checkSimilarQueries S now v q = some r →
      ∃ c ∈ candidateList S now v, validQ (tokenSet q) c ∧ r = c.2 ∧
        1/2 < simQ (tokenSet q) c ∧
        ∀ c' ∈ candidateList S now v, validQ (tokenSet q) c' →
          simQ (tokenSet q) c' ≤ simQ (tokenSet q) c) ∧
    ((∀ c ∈ candidateList S now v, validQ (tokenSet q) c →
        simQ (tokenSet q) c ≤ 1/2) →
      checkSimilarQueries S now v q = none) ∧
    ((∃ c ∈ candidateList S now v, validQ (tokenSet q) c ∧
        1/2 < simQ (tokenSet q) c) →
      ∃ r, checkSimilarQueries S now v q = some r) := by
  have hck : checkSimilarQueries S now v q =
      if candidateList S now v = [] then none
      else
        match ((candidateList S now v).foldl
            (similarStep (tokenSet q)) (none, 1/2)).1 with
        | some m => some m.2
        | none => none := by
    simp only [checkSimilarQueries, hnf, Bool.false_eq_true, if_false]
  rcases similar_fold_good (tokenSet q) (candidateList S now v) none (1/2)
    with ⟨hA, hB, hC⟩
  refine ⟨?_, ?_, ?_⟩
  · intro r hr
    rw [hck] at hr
    by_cases hemp : candidateList S now v = []
    · rw [if_pos hemp] at hr
      exact Option.noConfusion hr
    · rw [if_neg hemp] at hr
      rcases hC with ⟨h1, _⟩ | ⟨c, hc, hv, h1, h2, h3⟩
      · rw [h1] at hr
        exact Option.noConfusion hr
      · rw [h1] at hr
        have hr' : some c.2 = some r := hr
        injection hr' with hr2
        refine ⟨c, hc, hv, hr2.symm, h3, ?_⟩
        intro c' hc' hv'
        have := hB c' hc' hv'
        rw [h2] at this
        exact this
  · intro hall
    rw [hck]
    by_cases hemp : candidateList S now v = []
    · rw [if_pos hemp]
    · rw [if_neg hemp]
      rcases hC with ⟨h1, _⟩ | ⟨c, hc, hv, _, h2, h3⟩
      · rw [h1]
      · exfalso
        have := hall c hc hv
        linarith
  · intro hex
    obtain ⟨c, hc, hv, hgt⟩ := hex
    rw [hck]
    have hemp : ¬ candidateList S now v = [] := by
      intro e
      rw [e] at hc
      exact absurd hc (List.not_mem_nil c)
    rw [if_neg hemp]
    rcases hC with ⟨_, h2⟩ | ⟨c', _, _, h1, _, _⟩
    · exfalso
      have := hB c hc hv
      rw [h2] at this
      linarith
    · rw [h1]
      exact ⟨c'.2, rfl⟩

/-- C3 counterexample: in `emptyRespState` the video's maximum-similarity
non-expired candidate is the record with query "alpha beta"
(similarity 1 for the input "alpha beta"), but its stored response is
the empty string, so the scan drops it from the pool
(`if original_query and response:`) and — the surviving candidate
"alpha" scoring exactly 1/2 — returns absence, contradicting "returns
the response of the maximum-similarity candidate if and only if that
maximum strictly exceeds 0.5". -/
theorem similar_queries_empty_response_counterexample :
    lookupA emptyRespState.queryFiles ("v_alpha beta.json") =
      some (some ⟨"v", "alpha beta", "", 0⟩) ∧
    (5 : ℕ) < 0 + TTL ∧
    validQ (tokenSet "alpha beta") ("alpha beta", "") ∧
    simQ (tokenSet "alpha beta") ("alpha beta", "") = 1 ∧
    (1 : ℚ)/2 < 1 ∧
    checkSimilarQueries emptyRespState 5 "v" "alpha beta" = none := by
  have hI : ((tokenSet "alpha beta" ∩
      tokenSet (pyLower "alpha beta")).card) = 2 := by decide
  have hU : ((tokenSet "alpha beta" ∪
      tokenSet (pyLower "alpha beta")).card) = 2 := by decide
  have hsim1 : simQ (tokenSet "alpha beta") ("alpha beta", "") = 1 := by
    unfold simQ
    rw [hI, hU]
    norm_num
  have hI2 : ((tokenSet "alpha beta" ∩
      tokenSet (pyLower "alpha")).card) = 1 := by decide
  have hU2 : ((tokenSet "alpha beta" ∪
      tokenSet (pyLower "alpha")).card) = 2 := by decide
  have hsim2 : simQ (tokenSet "alpha beta") ("alpha", "R2") = 1/2 := by
    unfold simQ
    rw [hI2, hU2]
    norm_num
  have hcand : candidateList emptyRespState 5 "v" = [("alpha", "R2")] := by
    decide
  have hnone : checkSimilarQueries emptyRespState 5 "v" "alpha beta" =
      none := by
    show (if emptyRespState.listFails then none
      else if candidateList emptyRespState 5 "v" = [] then none
      else
        match ((candidateList emptyRespState 5 "v").foldl
            (similarStep (tokenSet "alpha beta")) (none, 1/2)).1 with
        | some m => some m.2
        | none => none) = none
    rw [hcand]
    rw [if_neg (fun h => Bool.noConfusion h)]
    rw [if_neg (by simp :
      ¬ ([("alpha", "R2")] : List (String × String)) = [])]
    rw [List.foldl_cons, List.foldl_nil]
    rw [similarStep_of_valid _ _ _ (by decide)]
    rw [hsim2]
    norm_num
  exact ⟨by decide, by decide, by decide, hsim1, by norm_num, hnone⟩

/-- Witness for C3 (amended) at the spec's worked example: with
"what is the main topic" → "R1" cached, the input
"what is main topic" has Jaccard similarity 4/5 > 1/2, so the fallback
returns a response. -/
theorem similar_queries_threshold_contract_witness :
    approxState.listFails = false ∧
    (∃ c ∈ candidateList approxState 5 "v",
      validQ (tokenSet "what is main topic") c ∧
      1/2 < simQ (tokenSet "what is main topic") c) ∧
    ∃ r, checkSimilarQueries approxState 5 "v" "what is main topic" =
      some r := by
  have hcand : candidateList approxState 5 "v" =
      [("what is the main topic", "R1")] := by decide
  have hI : ((tokenSet "what is main topic" ∩
      tokenSet (pyLower "what is the main topic")).card) = 4 := by decide
  have hU : ((tokenSet "what is main topic" ∪
      tokenSet (pyLower "what is the main topic")).card) = 5 := by decide
  have hsim : simQ (tokenSet "what is main topic")
      ("what is the main topic", "R1") = 4/5 := by
    unfold simQ
    rw [hI, hU]
    norm_num
  have hex : ∃ c ∈ candidateList approxState 5 "v",
      validQ (tokenSet "what is main topic") c ∧
      1/2 < simQ (tokenSet "what is main topic") c := by
    refine ⟨("what is the main topic", "R1"), ?_, by decide, ?_⟩
    · rw [hcand]
      exact List.mem_cons_self _ _
    · rw [hsim]
      norm_num
  exact ⟨rfl, hex,
    (similar_queries_threshold_contract approxState 5 "v"
      "what is main topic" rfl).2.2 hex⟩

/-! ## Claim C10 -/

/-- C10: the candidate pool is selected by the filename test
`f.startswith(f"{video_id}_")`, so a record cached by `put_response`
for the DIFFERENT video id `"v_x"` is scanned — and returned — by the
approximate fallback for video `"v"`: cross-video isolation fails when
one video id extends another by an underscore-separated suffix.  Every
record in `leakState` was stored under video id `"v_x"`, yet
`get_response` for video `"v"` returns that record's response. -/
theorem cross_video_response_leak :
    (∀ p ∈ leakState.queryFiles, ∀ rec0 : QueryRec,
      p.2 = some rec0 → rec0.video_id ≠ "v") ∧
    checkSimilarQueries leakState 5 "v" "alpha beta gamma" =
      some "SECRET" ∧
    (getResponse idHash leakState 5 "v" "alpha beta gamma").1 =
      some "SECRET" := by
  have hcand : candidateList leakState 5 "v" =
      [("alpha beta", "SECRET")] := by decide
  have hI : ((tokenSet "alpha beta gamma" ∩
      tokenSet (pyLower "alpha beta")).card) = 2 := by decide
  have hU : ((tokenSet "alpha beta gamma" ∪
      tokenSet (pyLower "alpha beta")).card) = 3 := by decide
  have hsim : simQ (tokenSet "alpha beta gamma")
      ("alpha beta", "SECRET") = 2/3 := by
    unfold simQ
    rw [hI, hU]
    norm_num
  have hchk : checkSimilarQueries leakState 5 "v" "alpha beta gamma" =
      some "SECRET" := by
    show (if leakState.listFails then none
      else if candidateList leakState 5 "v" = [] then none
      else
        match ((candidateList leakState 5 "v").foldl
            (similarStep (tokenSet "alpha beta gamma")) (none, 1/2)).1 with
        | some m => some m.2
        | none => none) = some "SECRET"
    rw [hcand]
    rw [if_neg (fun h => Bool.noConfusion h)]
    rw [if_neg (by simp :
      ¬ ([("alpha beta", "SECRET")] : List (String × String)) = [])]
    rw [List.foldl_cons, List.foldl_nil]
    rw [similarStep_of_valid _ _ _ (by decide)]
    rw [hsim]
    norm_num
  have hget : (getResponse idHash leakState 5 "v" "alpha beta gamma").1 =
      some "SECRET" := by
    have hdisk : tierGet leakState.disk 5
        ("query:" ++ "v" ++ ":" ++
          idHash (normalizeQuery "alpha beta gamma")) = none := by decide
    have hres := (getResponse_miss_contract idHash leakState 5 "v"
      "alpha beta gamma").2 (by decide)
      (by rw [hdisk]; exact trivial) (Or.inl (by decide))
    rw [hres]
    show checkSimilarQueries leakState 5 "v"
      (normalizeQuery "alpha beta gamma") = some "SECRET"
    have hnq : normalizeQuery "alpha beta gamma" = "alpha beta gamma" := by
      decide
    rw [hnq]
    exact hchk
  exact ⟨by decide, hchk, hget⟩

end TubeThought
